import Mathlib

/-!
Shallow embedding of the critica diff parser and renderer core
(`internal/parser/parser.go`, `internal/ui/renderer.go`).

Go strings are modelled as `List Char`; Go `int` as `Int`.
`strconv.Atoi` with a discarded error is modelled by `goAtoi` (0 on syntax
error, value clamped to int64 range on overflow, as Go's Atoi returns).
The running line counters are unbounded integers here, while Go's `int`
wraps at 2^63; the increments themselves never wrap as long as the final
counter value `start + count` stays within int64 range, so theorems whose
truth depends on absolute counter magnitudes carry that explicit in-range
hypothesis.
-/

/-- LineType from parser.go (LineUnchanged, LineAdded, LineDeleted, LineContext). -/
inductive LineType where
  | unchanged : LineType
  | added : LineType
  | deleted : LineType
  | context : LineType
deriving DecidableEq, Repr

/-- Line from parser.go: one line of a hunk. 0 stands for "not applicable". -/
structure Line where
  type : LineType
  content : List Char
  oldLineNum : Int
  newLineNum : Int
deriving DecidableEq, Repr

/-- Hunk from parser.go. -/
structure Hunk where
  oldStart : Int
  oldLines : Int
  newStart : Int
  newLines : Int
  lines : List Line
deriving DecidableEq, Repr

/-- FileDiff from parser.go. -/
structure FileDiff where
  oldPath : List Char
  newPath : List Char
  isNew : Bool
  isDeleted : Bool
  isRenamed : Bool
  extension : List Char
  hunks : List Hunk
deriving DecidableEq, Repr

/-- The single error produced by ParseDiff ("no diff data parsed"). -/
inductive ParseError where
  | emptyDiff : ParseError
deriving DecidableEq, Repr

/-- strings.HasPrefix check, with the literal given as a Lean string. -/
def hasPrefixStr (p : String) (l : List Char) : Bool :=
  p.toList.isPrefixOf l

/-- Embeds filepath.Ext scanning the reversed path: the suffix beginning at the
final dot in the final path element, empty when there is no such dot. `acc`
carries the characters already scanned, in forward order. -/
def goExtAux : List Char → List Char → List Char
  | [], _ => []
  | c :: rest, acc =>
    if c = '/' then []
    else if c = '.' then c :: acc
    else goExtAux rest (c :: acc)

/-- filepath.Ext as used for FileDiff.Extension. -/
def goExt (p : List Char) : List Char := goExtAux p.reverse []

/-- Value of a digit string, most significant first. -/
def digitsToNat (l : List Char) : Nat :=
  l.foldl (fun a c => a * 10 + (c.toNat - 48)) 0

/-- Whether `strconv.Atoi` would succeed on this string (optional sign, one or
more ASCII digits). -/
def isNumericStr (l : List Char) : Bool :=
  match l with
  | [] => false
  | c :: rest =>
    if c = '+' then !rest.isEmpty && rest.all Char.isDigit
    else if c = '-' then !rest.isEmpty && rest.all Char.isDigit
    else (c :: rest).all Char.isDigit

/-- Go strconv.ParseInt's range behavior on a 64-bit platform: an
out-of-range value is brought back to the nearest int64 bound (ParseInt
returns that clamped value together with ErrRange). -/
def clampInt64 (x : Int) : Int :=
  if x > 2 ^ 63 - 1 then 2 ^ 63 - 1
  else if x < -(2 ^ 63) then -(2 ^ 63)
  else x

/-- `v, _ := strconv.Atoi(s)` with the error discarded — the parsed value
clamped to int64 range (Atoi returns the clamped value with ErrRange on
overflow), or 0 when Atoi reports a syntax error (Atoi returns 0 together
with ErrSyntax). -/
def goAtoi (l : List Char) : Int :=
  match l with
  | [] => 0
  | c :: rest =>
    if c = '+' then
      (if !rest.isEmpty && rest.all Char.isDigit then clampInt64 (digitsToNat rest : Int) else 0)
    else if c = '-' then
      (if !rest.isEmpty && rest.all Char.isDigit then clampInt64 (-(digitsToNat rest : Int))
       else 0)
    else
      (if (c :: rest).all Char.isDigit then clampInt64 (digitsToNat (c :: rest) : Int) else 0)

/-- Splits `cs` as `g1 ++ " b/" ++ g2` with `g2` nonempty, choosing the
rightmost such occurrence (the greedy first `(.+)` of the diff-header regex
takes as much as possible). Returns `(g1, g2)`. -/
def splitLastSep : List Char → Option (List Char × List Char)
  | [] => none
  | c :: rest =>
    match splitLastSep rest with
    | some (g1, g2) => some (c :: g1, g2)
    | none =>
      match c, rest with
      | ' ', 'b' :: '/' :: g2 => if g2.isEmpty then none else some ([], g2)
      | _, _ => none

/-- Match of `^diff --git a/(.+) b/(.+)$` (diffHeaderRegex): captures
`(oldPath, newPath)` with Go's leftmost-first greedy submatch semantics. -/
def matchDiffHeader (l : List Char) : Option (List Char × List Char) :=
  if ("diff --git a/".toList).isPrefixOf l then
    match splitLastSep (l.drop 13) with
    | some (g1, g2) => if g1.isEmpty then none else some (g1, g2)
    | none => none
  else none

/-- Match of `^[+-]{3} (.+)$` (filePathRegex): three `+`/`-` characters, a
space, then at least one character. -/
def matchFilePath (l : List Char) : Bool :=
  match l with
  | a :: b :: c :: ' ' :: rest =>
    (a == '+' || a == '-') && (b == '+' || b == '-') && (c == '+' || c == '-') &&
      !rest.isEmpty
  | _ => false

/-- The optional `(?:,(\d+))?` group of the hunk-header regex: if the next
character is a comma it must be followed by at least one digit (otherwise the
whole pattern fails to match, since a bare comma can satisfy neither the
group nor the following literal); with no comma the group is skipped. -/
def parseOptCount (l : List Char) : Option (Option (List Char) × List Char) :=
  match l with
  | ',' :: rest =>
    let d := rest.takeWhile Char.isDigit
    if d.isEmpty then none else some (some d, rest.dropWhile Char.isDigit)
  | _ => some (none, l)

/-- Match of `^@@ -(\d+)(?:,(\d+))? \+(\d+)(?:,(\d+))? @@` (hunkHeaderRegex):
captures the four groups; trailing text after the closing `@@` is allowed
(the pattern has no `$`). Greedy `\d+` is maximal munch, which is exact here
because each digit group is followed by a non-digit literal. -/
def matchHunkHeader (l : List Char) :
    Option (List Char × Option (List Char) × List Char × Option (List Char)) :=
  match l with
  | '@' :: '@' :: ' ' :: '-' :: rest =>
    let d1 := rest.takeWhile Char.isDigit
    let r1 := rest.dropWhile Char.isDigit
    if d1.isEmpty then none else
    match parseOptCount r1 with
    | none => none
    | some (g2, r2) =>
      match r2 with
      | ' ' :: '+' :: rest2 =>
        let d3 := rest2.takeWhile Char.isDigit
        let r3 := rest2.dropWhile Char.isDigit
        if d3.isEmpty then none else
        match parseOptCount r3 with
        | none => none
        | some (g4, r4) =>
          match r4 with
          | ' ' :: '@' :: '@' :: _ => some (d1, g2, d3, g4)
          | _ => none
      | _ => none
  | _ => none

/-- Lines 126-143 of parser.go: build the new Hunk from the four captured
groups. A missing optional count defaults to 1; numeric values go through
`goAtoi` with the error discarded. -/
def mkHunk (g1 : List Char) (g2 : Option (List Char)) (g3 : List Char)
    (g4 : Option (List Char)) : Hunk :=
  { oldStart := goAtoi g1
    oldLines := match g2 with | none => 1 | some s => goAtoi s
    newStart := goAtoi g3
    newLines := match g4 with | none => 1 | some s => goAtoi s
    lines := [] }

/-- The mutable scan state of ParseDiff's loop. -/
structure ParseState where
  files : List FileDiff
  currentFile : Option FileDiff
  currentHunk : Option Hunk
  oldLineNum : Int
  newLineNum : Int
deriving DecidableEq, Repr

/-- Initial scan state (Go zero values). -/
def initState : ParseState :=
  { files := [], currentFile := none, currentHunk := none, oldLineNum := 0, newLineNum := 0 }

/-- One iteration of ParseDiff's loop body for a single line. Note that on a
new `diff --git` header the previous file is appended as-is: an open hunk of
the previous file is dropped, exactly as in the source. -/
def processLine (st : ParseState) (line : List Char) : ParseState :=
  match matchDiffHeader line with
  | some (oldP, newP) =>
    { st with
      files := match st.currentFile with
        | some f => st.files ++ [f]
        | none => st.files
      currentFile := some ⟨oldP, newP, false, false, false, goExt newP, []⟩
      currentHunk := none }
  | none =>
    match st.currentFile with
    | none => st
    | some cf =>
      if hasPrefixStr "new file mode" line then
        { st with currentFile := some { cf with isNew := true } }
      else if hasPrefixStr "deleted file mode" line then
        { st with currentFile := some { cf with isDeleted := true } }
      else if hasPrefixStr "rename from" line then
        { st with currentFile := some { cf with isRenamed := true } }
      else if hasPrefixStr "index " line || hasPrefixStr "Binary files" line ||
          hasPrefixStr "similarity index" line || hasPrefixStr "rename to" line then
        st
      else if matchFilePath line then
        st
      else
        match matchHunkHeader line with
        | some (g1, g2, g3, g4) =>
          let cf2 := match st.currentHunk with
            | some h => { cf with hunks := cf.hunks ++ [h] }
            | none => cf
          let h := mkHunk g1 g2 g3 g4
          { st with
            currentFile := some cf2
            currentHunk := some h
            oldLineNum := h.oldStart
            newLineNum := h.newStart }
        | none =>
          match st.currentHunk with
          | none => st
          | some h =>
            match line with
            | [] => st
            | c :: content =>
              if c = '+' then
                { st with
                  currentHunk := some
                    { h with lines := h.lines ++ [⟨.added, content, 0, st.newLineNum⟩] }
                  newLineNum := st.newLineNum + 1 }
              else if c = '-' then
                { st with
                  currentHunk := some
                    { h with lines := h.lines ++ [⟨.deleted, content, st.oldLineNum, 0⟩] }
                  oldLineNum := st.oldLineNum + 1 }
              else if c = ' ' then
                { st with
                  currentHunk := some
                    { h with lines := h.lines ++
                        [⟨.unchanged, content, st.oldLineNum, st.newLineNum⟩] }
                  oldLineNum := st.oldLineNum + 1
                  newLineNum := st.newLineNum + 1 }
              else st

/-- Lines 198-204 of parser.go: append the open hunk to the open file, then
the open file to the result list. -/
def finalizeState (st : ParseState) : List FileDiff :=
  match st.currentFile, st.currentHunk with
  | some cf, some h => st.files ++ [{ cf with hunks := cf.hunks ++ [h] }]
  | some cf, none => st.files ++ [cf]
  | none, _ => st.files

/-- The loop and final error check of ParseDiff, over pre-split lines. -/
def parseLines (lines : List (List Char)) : Except ParseError (List FileDiff) :=
  let fs := finalizeState (lines.foldl processLine initState)
  if fs.isEmpty then .error .emptyDiff else .ok fs

/-- strings.Split(s, "\n"). -/
def splitLines : List Char → List (List Char)
  | [] => [[]]
  | c :: rest =>
    if c = '\n' then [] :: splitLines rest
    else
      match splitLines rest with
      | l :: ls => (c :: l) :: ls
      | [] => [[c]]

/-- ParseDiff from parser.go: empty input short-circuits to an empty success,
otherwise the input is split on newlines and scanned line by line. -/
def ParseDiff (s : List Char) : Except ParseError (List FileDiff) :=
  if s.isEmpty then .ok [] else parseLines (splitLines s)

/-- inlineSegment from renderer.go. -/
structure InlineSegment where
  text : List Char
  changed : Bool
deriving DecidableEq, Repr

/-- commonPrefixLength from renderer.go: number of leading positions where
the two rune slices agree. -/
def commonPrefixLength : List Char → List Char → Nat
  | a :: as, b :: bs => if a = b then commonPrefixLength as bs + 1 else 0
  | _, _ => 0

/-- commonSuffixLength from renderer.go: compares from the ends, which is the
prefix comparison of the reversals. -/
def commonSuffixLength (a b : List Char) : Nat :=
  commonPrefixLength a.reverse b.reverse

/-- splitInlineSegments from renderer.go. -/
def splitInlineSegments (text counterpart : List Char) : List InlineSegment :=
  if counterpart.isEmpty then []
  else
    let p := commonPrefixLength text counterpart
    let remainingText := text.drop p
    let remainingCounter := counterpart.drop p
    let s0 := commonSuffixLength remainingText remainingCounter
    let s := if s0 > remainingText.length then remainingText.length else s0
    let segs1 : List InlineSegment :=
      if p > 0 then [{ text := text.take p, changed := false }] else []
    let ce0 := text.length - s
    let ce := if ce0 < p then p else ce0
    let segs2 :=
      if ce > p then segs1 ++ [{ text := (text.drop p).take (ce - p), changed := true }]
      else segs1
    let segs3 :=
      if s > 0 && decide (ce < text.length) then
        segs2 ++ [{ text := text.drop ce, changed := false }]
      else segs2
    segs3

/-- Modelled from the spec's description of `segment` (section 4.3): with
`p` the common-prefix length, `s` the common-suffix length of the remainders
clamped to `len(text) - p`, and `ce = max(p, len(text) - s)`, the result is
the in-order sequence of the non-empty segments among the unchanged prefix
`text[0:p]`, the changed middle `text[p:ce]` and the unchanged tail
`text[ce:]`; empty counterpart gives the empty sequence. -/
def segmentSpec (text counterpart : List Char) : List InlineSegment :=
  if counterpart.isEmpty then []
  else
    let p := commonPrefixLength text counterpart
    let s := min (commonSuffixLength (text.drop p) (counterpart.drop p)) (text.length - p)
    let ce := max p (text.length - s)
    ([{ text := text.take p, changed := false },
      { text := (text.drop p).take (ce - p), changed := true },
      { text := text.drop ce, changed := false }].filter (fun seg => !seg.text.isEmpty))

/-- computeLinePairs from renderer.go, as a recursion over the line list;
`i` is the current scan index. Recording a pair consumes both lines so the
added line is never reconsidered as the start of a new pair. -/
def computePairsAux : Nat → List Line → List (Nat × List Char)
  | _, [] => []
  | _, [_] => []
  | i, l₁ :: l₂ :: rest =>
    if l₁.type = LineType.deleted ∧ l₂.type = LineType.added then
      (i, l₂.content) :: (i + 1, l₁.content) :: computePairsAux (i + 2) rest
    else
      computePairsAux (i + 1) (l₂ :: rest)

/-- computeLinePairs from renderer.go: the pair map of a hunk's lines, as an
association list with strictly increasing keys. -/
def computeLinePairs (lines : List Line) : List (Nat × List Char) :=
  computePairsAux 0 lines

/-- How the running counters advance for one emitted line of the given type
(lines 162-194 of parser.go). -/
def stepCounters (o n : Int) (l : Line) : Int × Int :=
  match l.type with
  | LineType.added => (o, n + 1)
  | LineType.deleted => (o + 1, n)
  | LineType.unchanged => (o + 1, n + 1)
  | LineType.context => (o, n)

/-- Whether one line carries exactly the numbers the parser stamps when the
running counters are (o, n): Added gets (0, n), Deleted gets (o, 0),
Unchanged gets (o, n); the parser never emits Context lines. -/
def lineStampOk (o n : Int) (l : Line) : Bool :=
  match l.type with
  | LineType.added => l.oldLineNum == 0 && l.newLineNum == n
  | LineType.deleted => l.oldLineNum == o && l.newLineNum == 0
  | LineType.unchanged => l.oldLineNum == o && l.newLineNum == n
  | LineType.context => false

/-- The whole line list is stamped by counters that start at (o, n) and
advance by stepCounters, in order. -/
def stampedFrom : Int → Int → List Line → Bool
  | _, _, [] => true
  | o, n, l :: rest =>
    lineStampOk o n l && stampedFrom (stepCounters o n l).1 (stepCounters o n l).2 rest

/-- Final value of the running counters after consuming all lines. -/
def runCounters : Int → Int → List Line → Int × Int
  | o, n, [] => (o, n)
  | o, n, l :: rest => runCounters (stepCounters o n l).1 (stepCounters o n l).2 rest

/-- Lines counted against the old file (Deleted and Unchanged). -/
def oldSide (l : Line) : Bool :=
  match l.type with
  | LineType.deleted => true
  | LineType.unchanged => true
  | _ => false

/-- Lines counted against the new file (Added and Unchanged). -/
def newSide (l : Line) : Bool :=
  match l.type with
  | LineType.added => true
  | LineType.unchanged => true
  | _ => false

def countOld (ls : List Line) : Nat := (ls.filter oldSide).length

def countNew (ls : List Line) : Nat := (ls.filter newSide).length

/-- All hunks reachable from the scan state are correctly stamped, and the
open hunk's stamp counters agree with the state's running counters. -/
def hunksStamped (st : ParseState) : Prop :=
  (∀ f ∈ st.files, ∀ h ∈ f.hunks, stampedFrom h.oldStart h.newStart h.lines = true) ∧
  (∀ cf, st.currentFile = some cf →
    ∀ h ∈ cf.hunks, stampedFrom h.oldStart h.newStart h.lines = true) ∧
  (∀ h, st.currentHunk = some h → stampedFrom h.oldStart h.newStart h.lines = true ∧
    runCounters h.oldStart h.newStart h.lines = (st.oldLineNum, st.newLineNum))

/-- The captured (oldPath, newPath) pairs of the `diff --git` header lines of
the input, in input order. -/
def headerCaptures (lines : List (List Char)) : List (List Char × List Char) :=
  lines.filterMap matchDiffHeader

/-- The (oldPath, newPath) pairs of a file list, in order. -/
def pathsOf (fs : List FileDiff) : List (List Char × List Char) :=
  fs.map (fun f => (f.oldPath, f.newPath))

/-- The path pairs of all files accumulated so far, the open one last. -/
def statePaths (st : ParseState) : List (List Char × List Char) :=
  pathsOf st.files ++
    (match st.currentFile with
     | some f => [(f.oldPath, f.newPath)]
     | none => [])


theorem commonPrefixLength_le (a b : List Char) : commonPrefixLength a b ≤ a.length := by
  induction a generalizing b with
  | nil => simp [commonPrefixLength]
  | cons x xs ih =>
    cases b with
    | nil => simp [commonPrefixLength]
    | cons y ys =>
      simp only [commonPrefixLength, List.length_cons]
      split
      · exact Nat.succ_le_succ (ih ys)
      · omega

theorem commonSuffixLength_le (a b : List Char) : commonSuffixLength a b ≤ a.length := by
  have h := commonPrefixLength_le a.reverse b.reverse
  simpa [commonSuffixLength] using h

theorem isEmpty_eq_decide_length (l : List Char) : l.isEmpty = decide (l.length = 0) := by
  cases l <;> simp

theorem segs_filter_eq (t : List Char) (p s ce : Nat) (hp : p ≤ t.length)
    (hce1 : p ≤ ce) (hce2 : ce ≤ t.length) (hsce : s = 0 → t.length ≤ ce) :
    (if (decide (s > 0) && decide (ce < t.length)) = true then
        (if ce > p then
            (if p > 0 then [({ text := t.take p, changed := false } : InlineSegment)] else []) ++
              [{ text := (t.drop p).take (ce - p), changed := true }]
          else if p > 0 then [{ text := t.take p, changed := false }] else []) ++
          [{ text := t.drop ce, changed := false }]
      else
        if ce > p then
          (if p > 0 then [({ text := t.take p, changed := false } : InlineSegment)] else []) ++
            [{ text := (t.drop p).take (ce - p), changed := true }]
        else if p > 0 then [{ text := t.take p, changed := false }] else []) =
    List.filter (fun seg => !seg.text.isEmpty)
      [{ text := t.take p, changed := false },
        { text := (t.drop p).take (ce - p), changed := true },
        { text := t.drop ce, changed := false }] := by
  have f1 : (!(t.take p).isEmpty) = decide (0 < p) := by
    rw [isEmpty_eq_decide_length, List.length_take]
    rcases Nat.eq_zero_or_pos p with h | h
    · simp [h]
    · have hne : ¬ (min p t.length = 0) := by omega
      simp [hne, h]
  have f2 : (!((t.drop p).take (ce - p)).isEmpty) = decide (p < ce) := by
    rw [isEmpty_eq_decide_length, List.length_take, List.length_drop]
    rcases le_or_lt ce p with h | h
    · have h0 : ce - p = 0 := by omega
      have h1 : ¬ p < ce := by omega
      simp [h0, h1]
    · have hne : ¬ (min (ce - p) (t.length - p) = 0) := by omega
      simp [hne, h]
  have f3 : (!(t.drop ce).isEmpty) = decide (ce < t.length) := by
    rw [isEmpty_eq_decide_length, List.length_drop]
    rcases le_or_lt t.length ce with h | h
    · have h1 : ¬ ce < t.length := by omega
      simp [Nat.sub_eq_zero_of_le h, h1]
    · have hne : ¬ (t.length - ce = 0) := by omega
      simp [hne, h]
  have hA : (decide (s > 0) && decide (ce < t.length)) = decide (ce < t.length) := by
    rcases le_or_lt t.length ce with h | h
    · have h1 : ¬ ce < t.length := by omega
      simp [h1]
    · have hs : 0 < s := by
        rcases Nat.eq_zero_or_pos s with h0 | h0
        · exact absurd (hsce h0) (by omega)
        · exact h0
      simp [hs, h]
  rw [hA]
  simp only [List.filter_cons, List.filter_nil, f1, f2, f3, gt_iff_lt, decide_eq_true_eq]
  split_ifs <;> simp

/-- C4: `splitInlineSegments` returns the empty sequence for an empty
counterpart, and otherwise exactly the in-order non-empty segments among the
unchanged common prefix, the changed middle up to
`changed_end = max(prefix_len, len(text) - suffix_len)` (suffix length
clamped to `len(text) - prefix_len`), and the unchanged tail — i.e. it
coincides with the spec-worded `segmentSpec` on all inputs. -/
theorem c4_segment_matches_spec (text counterpart : List Char) :
    splitInlineSegments text counterpart = segmentSpec text counterpart := by
  by_cases hc : counterpart.isEmpty
  · simp [splitInlineSegments, segmentSpec, hc]
  · have hp : commonPrefixLength text counterpart ≤ text.length :=
      commonPrefixLength_le text counterpart
    have hs0 :
        commonSuffixLength (text.drop (commonPrefixLength text counterpart))
            (counterpart.drop (commonPrefixLength text counterpart)) ≤
          text.length - commonPrefixLength text counterpart := by
      have h := commonSuffixLength_le (text.drop (commonPrefixLength text counterpart))
        (counterpart.drop (commonPrefixLength text counterpart))
      simpa using h
    simp only [splitInlineSegments, segmentSpec, hc, Bool.false_eq_true, if_false,
      List.length_drop]
    set p := commonPrefixLength text counterpart with hpdef
    set s0 := commonSuffixLength (text.drop p) (counterpart.drop p) with hs0def
    have hmin : (if s0 > text.length - p then text.length - p else s0) =
        min s0 (text.length - p) := by
      split <;> omega
    rw [hmin]
    set s := min s0 (text.length - p) with hsdef
    have hmax : (if text.length - s < p then p else text.length - s) =
        max p (text.length - s) := by
      split <;> omega
    rw [hmax]
    exact segs_filter_eq text p s (max p (text.length - s)) hp (le_max_left _ _)
      (by omega) (by omega)

theorem twoStepInductionLines {motive : List Line → Prop} (h0 : motive [])
    (h1 : ∀ l, motive [l])
    (h2 : ∀ l₁ l₂ rest, motive rest → motive (l₂ :: rest) → motive (l₁ :: l₂ :: rest)) :
    ∀ ls, motive ls
  | [] => h0
  | [l] => h1 l
  | l₁ :: l₂ :: rest =>
    h2 l₁ l₂ rest (twoStepInductionLines h0 h1 h2 rest)
      (twoStepInductionLines h0 h1 h2 (l₂ :: rest))

theorem drop_cons_tail (ls : List Line) (k : Nat) (x : Line) (xs : List Line)
    (h : ls.drop k = x :: xs) : ls.drop (k + 1) = xs := by
  rw [← List.tail_drop, h]
  rfl

theorem lookup_cons_self (i : Nat) (v : List Char) (es : List (Nat × List Char)) :
    List.lookup i ((i, v) :: es) = some v := by
  simp [List.lookup]

theorem lookup_cons_ne (i j : Nat) (v : List Char) (es : List (Nat × List Char))
    (h : j ≠ i) : List.lookup j ((i, v) :: es) = List.lookup j es := by
  have hb : (j == i) = false := beq_eq_false_iff_ne.mpr h
  simp [List.lookup, hb]

theorem lookup_computePairsAux :
    ∀ ls : List Line, ∀ i j : Nat, ∀ v : List Char,
      List.lookup j (computePairsAux i ls) = some v ↔
        ∃ k a b rest, ls.drop k = a :: b :: rest ∧ a.type = LineType.deleted ∧
          b.type = LineType.added ∧
          ((j = i + k ∧ v = b.content) ∨ (j = i + k + 1 ∧ v = a.content)) := by
  intro ls
  induction ls using twoStepInductionLines with
  | h0 =>
    intro i j v
    constructor
    · intro h
      simp [computePairsAux, List.lookup] at h
    · rintro ⟨k, a, b, rest, hd, -, -, -⟩
      simp at hd
  | h1 l =>
    intro i j v
    constructor
    · intro h
      simp [computePairsAux, List.lookup] at h
    · rintro ⟨k, a, b, rest, hd, -, -, -⟩
      have hlen := congrArg List.length hd
      simp [List.length_drop] at hlen
      omega
  | h2 l₁ l₂ rest ihr iht =>
    intro i j v
    by_cases hda : l₁.type = LineType.deleted ∧ l₂.type = LineType.added
    · have hunf : computePairsAux i (l₁ :: l₂ :: rest) =
          (i, l₂.content) :: (i + 1, l₁.content) :: computePairsAux (i + 2) rest := by
        simp only [computePairsAux]
        rw [if_pos hda]
      rw [hunf]
      constructor
      · intro h
        by_cases hji : j = i
        · subst hji
          rw [lookup_cons_self] at h
          exact ⟨0, l₁, l₂, rest, rfl, hda.1, hda.2,
            Or.inl ⟨by omega, (Option.some.inj h).symm⟩⟩
        · by_cases hji2 : j = i + 1
          · subst hji2
            rw [lookup_cons_ne _ _ _ _ (by omega), lookup_cons_self] at h
            exact ⟨0, l₁, l₂, rest, rfl, hda.1, hda.2,
              Or.inr ⟨by omega, (Option.some.inj h).symm⟩⟩
          · rw [lookup_cons_ne _ _ _ _ hji, lookup_cons_ne _ _ _ _ hji2] at h
            obtain ⟨k, a, b, r, hd, h1, h2, h3⟩ := (ihr (i + 2) j v).mp h
            refine ⟨k + 2, a, b, r, by simpa [List.drop_succ_cons] using hd, h1, h2, ?_⟩
            rcases h3 with ⟨hj, hv⟩ | ⟨hj, hv⟩
            · exact Or.inl ⟨by omega, hv⟩
            · exact Or.inr ⟨by omega, hv⟩
      · rintro ⟨k, a, b, r, hd, h1, h2, h3⟩
        rcases k with _ | k'
        · simp only [List.drop_zero] at hd
          obtain ⟨e1, e2, e3⟩ : l₁ = a ∧ l₂ = b ∧ rest = r := by
            injection hd with x1 y1
            injection y1 with x2 y2
            exact ⟨x1, x2, y2⟩
          subst e1; subst e2; subst e3
          rcases h3 with ⟨hj, hv⟩ | ⟨hj, hv⟩
          · have hj' : j = i := by omega
            subst hj'; subst hv
            rw [lookup_cons_self]
          · have hj' : j = i + 1 := by omega
            subst hj'; subst hv
            rw [lookup_cons_ne _ _ _ _ (by omega), lookup_cons_self]
        · have hd' : (l₂ :: rest).drop k' = a :: b :: r := by
            simpa [List.drop_succ_cons] using hd
          rcases k' with _ | k''
          · simp only [List.drop_zero] at hd'
            have e : l₂ = a := by injection hd'
            exfalso
            rw [e] at hda
            rw [h1] at hda
            exact absurd hda.2 (by decide)
          · have hd'' : rest.drop k'' = a :: b :: r := by
              simpa [List.drop_succ_cons] using hd'
            have hj1 : j ≠ i := by rcases h3 with ⟨hj, -⟩ | ⟨hj, -⟩ <;> omega
            have hj2 : j ≠ i + 1 := by rcases h3 with ⟨hj, -⟩ | ⟨hj, -⟩ <;> omega
            rw [lookup_cons_ne _ _ _ _ hj1, lookup_cons_ne _ _ _ _ hj2]
            apply (ihr (i + 2) j v).mpr
            refine ⟨k'', a, b, r, hd'', h1, h2, ?_⟩
            rcases h3 with ⟨hj, hv⟩ | ⟨hj, hv⟩
            · exact Or.inl ⟨by omega, hv⟩
            · exact Or.inr ⟨by omega, hv⟩
    · have hunf : computePairsAux i (l₁ :: l₂ :: rest) =
          computePairsAux (i + 1) (l₂ :: rest) := by
        simp only [computePairsAux]
        rw [if_neg hda]
      rw [hunf, iht (i + 1) j v]
      constructor
      · rintro ⟨k, a, b, r, hd, h1, h2, h3⟩
        refine ⟨k + 1, a, b, r, by simpa [List.drop_succ_cons] using hd, h1, h2, ?_⟩
        rcases h3 with ⟨hj, hv⟩ | ⟨hj, hv⟩
        · exact Or.inl ⟨by omega, hv⟩
        · exact Or.inr ⟨by omega, hv⟩
      · rintro ⟨k, a, b, r, hd, h1, h2, h3⟩
        rcases k with _ | k'
        · simp only [List.drop_zero] at hd
          obtain ⟨e1, e2, e3⟩ : l₁ = a ∧ l₂ = b ∧ rest = r := by
            injection hd with x1 y1
            injection y1 with x2 y2
            exact ⟨x1, x2, y2⟩
          exact absurd ⟨by rw [e1]; exact h1, by rw [e2]; exact h2⟩ hda
        · refine ⟨k', a, b, r, by simpa [List.drop_succ_cons] using hd, h1, h2, ?_⟩
          rcases h3 with ⟨hj, hv⟩ | ⟨hj, hv⟩
          · exact Or.inl ⟨by omega, hv⟩
          · exact Or.inr ⟨by omega, hv⟩

theorem lookup_computeLinePairs (lines : List Line) (j : Nat) (v : List Char) :
    List.lookup j (computeLinePairs lines) = some v ↔
      ∃ k a b rest, lines.drop k = a :: b :: rest ∧ a.type = LineType.deleted ∧
        b.type = LineType.added ∧
        ((j = k ∧ v = b.content) ∨ (j = k + 1 ∧ v = a.content)) := by
  have h := lookup_computePairsAux lines 0 j v
  simpa [computeLinePairs] using h

/-- C5: computeLinePairs records, for every adjacent Deleted-then-Added pair
starting at index i, the counterpart contents at keys i and i+1 (skipping past
both); a Deleted line not immediately followed by an Added line, and an Added
line not immediately preceded by a Deleted line, get no entry; and on
[Deleted "a", Added "b", Deleted "c"] it yields {0 : "b", 1 : "a"} with no
entry at 2, on [Deleted "x", Deleted "y", Added "z"] exactly {1 : "z", 2 : "y"}. -/
theorem c5_compute_pairs_adjacent :
    (∀ lines i a b rest, lines.drop i = a :: b :: rest → a.type = LineType.deleted →
        b.type = LineType.added →
        List.lookup i (computeLinePairs lines) = some b.content ∧
        List.lookup (i + 1) (computeLinePairs lines) = some a.content) ∧
    (∀ lines i a rest, lines.drop i = a :: rest → a.type = LineType.deleted →
        (∀ b ∈ rest.head?, ¬ b.type = LineType.added) →
        List.lookup i (computeLinePairs lines) = none) ∧
    (∀ lines i b rest, lines.drop i = b :: rest → b.type = LineType.added →
        (∀ k a rest2, i = k + 1 → lines.drop k = a :: rest2 → ¬ a.type = LineType.deleted) →
        List.lookup i (computeLinePairs lines) = none) ∧
    computeLinePairs
        [⟨LineType.deleted, ['a'], 1, 0⟩, ⟨LineType.added, ['b'], 0, 1⟩,
         ⟨LineType.deleted, ['c'], 2, 0⟩] = [(0, ['b']), (1, ['a'])] ∧
    List.lookup 2 (computeLinePairs
        [⟨LineType.deleted, ['a'], 1, 0⟩, ⟨LineType.added, ['b'], 0, 1⟩,
         ⟨LineType.deleted, ['c'], 2, 0⟩]) = none ∧
    computeLinePairs
        [⟨LineType.deleted, ['x'], 1, 0⟩, ⟨LineType.deleted, ['y'], 2, 0⟩,
         ⟨LineType.added, ['z'], 0, 1⟩] = [(1, ['z']), (2, ['y'])] := by
  refine ⟨?_, ?_, ?_, by decide, by decide, by decide⟩
  · intro lines i a b rest hd hdel hadd
    constructor
    · exact (lookup_computeLinePairs lines i b.content).mpr
        ⟨i, a, b, rest, hd, hdel, hadd, Or.inl ⟨rfl, rfl⟩⟩
    · exact (lookup_computeLinePairs lines (i + 1) a.content).mpr
        ⟨i, a, b, rest, hd, hdel, hadd, Or.inr ⟨rfl, rfl⟩⟩
  · intro lines i a rest hd hdel hnext
    rcases hl : List.lookup i (computeLinePairs lines) with _ | v
    · rfl
    · exfalso
      obtain ⟨k, a2, b2, r2, hd2, h1, h2, h3⟩ := (lookup_computeLinePairs lines i v).mp hl
      have hik : i = k ∨ i = k + 1 := by
        rcases h3 with ⟨hj, -⟩ | ⟨hj, -⟩
        · exact Or.inl hj
        · exact Or.inr hj
      rcases hik with hik | hik
      · subst hik
        rw [hd] at hd2
        obtain ⟨e1, e2⟩ : a = a2 ∧ rest = b2 :: r2 := by
          injection hd2 with x1 y1
          exact ⟨x1, y1⟩
        have : b2 ∈ rest.head? := by rw [e2]; rfl
        exact hnext b2 this h2
      · subst hik
        have hd2' : lines.drop (k + 1) = b2 :: r2 := drop_cons_tail lines k a2 (b2 :: r2) hd2
        rw [hd] at hd2'
        have e : a = b2 := by injection hd2'
        rw [e, h2] at hdel
        exact absurd hdel (by decide)
  · intro lines i b rest hd hadd hprev
    rcases hl : List.lookup i (computeLinePairs lines) with _ | v
    · rfl
    · exfalso
      obtain ⟨k, a2, b2, r2, hd2, h1, h2, h3⟩ := (lookup_computeLinePairs lines i v).mp hl
      have hik : i = k ∨ i = k + 1 := by
        rcases h3 with ⟨hj, -⟩ | ⟨hj, -⟩
        · exact Or.inl hj
        · exact Or.inr hj
      rcases hik with hik | hik
      · subst hik
        rw [hd] at hd2
        have e : b = a2 := by injection hd2
        rw [e, h1] at hadd
        exact absurd hadd (by decide)
      · exact hprev k a2 (b2 :: r2) hik hd2 h1

/-- C5 witness: the general parts instantiated on the concrete example
[Deleted "x", Deleted "y", Added "z"] at the adjacent pair (1, 2). -/
theorem c5_witness :
    List.lookup 1 (computeLinePairs
        [⟨LineType.deleted, ['x'], 1, 0⟩, ⟨LineType.deleted, ['y'], 2, 0⟩,
         ⟨LineType.added, ['z'], 0, 1⟩]) = some ['z'] ∧
    List.lookup 2 (computeLinePairs
        [⟨LineType.deleted, ['x'], 1, 0⟩, ⟨LineType.deleted, ['y'], 2, 0⟩,
         ⟨LineType.added, ['z'], 0, 1⟩]) = some ['y'] ∧
    List.lookup 0 (computeLinePairs
        [⟨LineType.deleted, ['x'], 1, 0⟩, ⟨LineType.deleted, ['y'], 2, 0⟩,
         ⟨LineType.added, ['z'], 0, 1⟩]) = none := by
  refine ⟨?_, ?_, ?_⟩
  · exact (c5_compute_pairs_adjacent.1 _ 1 ⟨LineType.deleted, ['y'], 2, 0⟩
      ⟨LineType.added, ['z'], 0, 1⟩ [] (by decide) rfl rfl).1
  · exact (c5_compute_pairs_adjacent.1 _ 1 ⟨LineType.deleted, ['y'], 2, 0⟩
      ⟨LineType.added, ['z'], 0, 1⟩ [] (by decide) rfl rfl).2
  · exact c5_compute_pairs_adjacent.2.1 _ 0 ⟨LineType.deleted, ['x'], 1, 0⟩
      [⟨LineType.deleted, ['y'], 2, 0⟩, ⟨LineType.added, ['z'], 0, 1⟩]
      (by decide) rfl (by decide)

/-- C9: the pair map is structurally a disjoint union of adjacent index
pairs: every key j belongs to a unique adjacent pair (i, i+1) with a Deleted
line at i and an Added line at i+1, both i and i+1 are keys, and the entries
cross-reference the two contents. -/
theorem c9_pairs_disjoint_union :
    ∀ lines j v, List.lookup j (computeLinePairs lines) = some v →
      ∃ i a b rest, lines.drop i = a :: b :: rest ∧ a.type = LineType.deleted ∧
        b.type = LineType.added ∧ (j = i ∨ j = i + 1) ∧
        List.lookup i (computeLinePairs lines) = some b.content ∧
        List.lookup (i + 1) (computeLinePairs lines) = some a.content ∧
        (∀ i2 a2 b2 rest2, lines.drop i2 = a2 :: b2 :: rest2 →
          a2.type = LineType.deleted → b2.type = LineType.added →
          (j = i2 ∨ j = i2 + 1) → i2 = i) := by
  intro lines j v hl
  obtain ⟨k, a, b, rest, hd, h1, h2, h3⟩ := (lookup_computeLinePairs lines j v).mp hl
  have hj : j = k ∨ j = k + 1 := by
    rcases h3 with ⟨hj, -⟩ | ⟨hj, -⟩
    · exact Or.inl hj
    · exact Or.inr hj
  refine ⟨k, a, b, rest, hd, h1, h2, hj, ?_, ?_, ?_⟩
  · exact (lookup_computeLinePairs lines k b.content).mpr
      ⟨k, a, b, rest, hd, h1, h2, Or.inl ⟨rfl, rfl⟩⟩
  · exact (lookup_computeLinePairs lines (k + 1) a.content).mpr
      ⟨k, a, b, rest, hd, h1, h2, Or.inr ⟨rfl, rfl⟩⟩
  · intro i2 a2 b2 rest2 hd2 h1' h2' hj2
    rcases hj with hja | hja <;> rcases hj2 with hjb | hjb
    · omega
    · exfalso
      subst hja
      have hd2' : lines.drop (i2 + 1) = b2 :: rest2 :=
        drop_cons_tail lines i2 a2 (b2 :: rest2) hd2
      rw [← hjb] at hd2'
      rw [hd] at hd2'
      have e : a = b2 := by injection hd2'
      rw [e, h2'] at h1
      exact absurd h1 (by decide)
    · exfalso
      subst hjb
      have hd' : lines.drop (k + 1) = b :: rest :=
        drop_cons_tail lines k a (b :: rest) hd
      rw [← hja] at hd'
      rw [hd2] at hd'
      have e : a2 = b := by injection hd'
      rw [e, h2] at h1'
      exact absurd h1' (by decide)
    · omega

/-- C9 witness: the disjoint-union structure exhibited on the concrete pair
map of [Deleted "a", Added "b", Deleted "c"] at key 0. -/
theorem c9_witness :
    ∃ i a b rest,
      ([⟨LineType.deleted, ['a'], 1, 0⟩, ⟨LineType.added, ['b'], 0, 1⟩,
        ⟨LineType.deleted, ['c'], 2, 0⟩] : List Line).drop i = a :: b :: rest ∧
      a.type = LineType.deleted ∧ b.type = LineType.added ∧ (0 = i ∨ 0 = i + 1) ∧
      List.lookup i (computeLinePairs
        [⟨LineType.deleted, ['a'], 1, 0⟩, ⟨LineType.added, ['b'], 0, 1⟩,
         ⟨LineType.deleted, ['c'], 2, 0⟩]) = some b.content ∧
      List.lookup (i + 1) (computeLinePairs
        [⟨LineType.deleted, ['a'], 1, 0⟩, ⟨LineType.added, ['b'], 0, 1⟩,
         ⟨LineType.deleted, ['c'], 2, 0⟩]) = some a.content ∧
      (∀ i2 a2 b2 rest2,
        ([⟨LineType.deleted, ['a'], 1, 0⟩, ⟨LineType.added, ['b'], 0, 1⟩,
          ⟨LineType.deleted, ['c'], 2, 0⟩] : List Line).drop i2 = a2 :: b2 :: rest2 →
        a2.type = LineType.deleted → b2.type = LineType.added →
        (0 = i2 ∨ 0 = i2 + 1) → i2 = i) :=
  c9_pairs_disjoint_union
    [⟨LineType.deleted, ['a'], 1, 0⟩, ⟨LineType.added, ['b'], 0, 1⟩,
     ⟨LineType.deleted, ['c'], 2, 0⟩] 0 ['b'] (by decide)

/-- C6 counterexample: for N = M = 2 (two deletions then two additions) the
claim predicts min(N, M) = 2 paired slot pairs, i.e. all four indices paired;
computeLinePairs pairs only the single boundary adjacency (1, 2), leaving
indices 0 and 3 without entries. -/
theorem c6_counterexample :
    computeLinePairs
        [⟨LineType.deleted, ['a'], 1, 0⟩, ⟨LineType.deleted, ['b'], 2, 0⟩,
         ⟨LineType.added, ['c'], 0, 1⟩, ⟨LineType.added, ['d'], 0, 2⟩] =
      [(1, ['c']), (2, ['b'])] ∧
    List.lookup 0 (computeLinePairs
        [⟨LineType.deleted, ['a'], 1, 0⟩, ⟨LineType.deleted, ['b'], 2, 0⟩,
         ⟨LineType.added, ['c'], 0, 1⟩, ⟨LineType.added, ['d'], 0, 2⟩]) = none ∧
    List.lookup 3 (computeLinePairs
        [⟨LineType.deleted, ['a'], 1, 0⟩, ⟨LineType.deleted, ['b'], 2, 0⟩,
         ⟨LineType.added, ['c'], 0, 1⟩, ⟨LineType.added, ['d'], 0, 2⟩]) = none := by
  decide

theorem computePairsAux_no_deleted (ls : List Line)
    (h : ∀ l ∈ ls, ¬ l.type = LineType.deleted) :
    ∀ i, computePairsAux i ls = [] := by
  induction ls using twoStepInductionLines with
  | h0 => intro i; rfl
  | h1 l => intro i; rfl
  | h2 l₁ l₂ rest ihr iht =>
    intro i
    have hnd : ¬ (l₁.type = LineType.deleted ∧ l₂.type = LineType.added) := by
      intro hc
      exact h l₁ (by simp) hc.1
    simp only [computePairsAux]
    rw [if_neg hnd]
    exact iht (fun l hl => h l (List.mem_cons_of_mem _ hl)) (i + 1)

theorem computePairsAux_del_run (dl af : Line) (adds : List Line)
    (hdl : dl.type = LineType.deleted) (haf : af.type = LineType.added)
    (hadds : ∀ l ∈ adds, l.type = LineType.added) :
    ∀ ds : List Line, (∀ l ∈ ds, l.type = LineType.deleted) →
      ∀ i, computePairsAux i (ds ++ dl :: af :: adds) =
        [(i + ds.length, af.content), (i + ds.length + 1, dl.content)] := by
  intro ds
  induction ds with
  | nil =>
    intro _ i
    have htail : computePairsAux (i + 2) adds = [] := by
      apply computePairsAux_no_deleted
      intro l hl
      rw [hadds l hl]
      decide
    simp [computePairsAux, hdl, haf, htail]
  | cons d ds ih =>
    intro hds i
    have hds' : ∀ l ∈ ds, l.type = LineType.deleted :=
      fun l hl => hds l (List.mem_cons_of_mem _ hl)
    have hd : d.type = LineType.deleted := hds d (by simp)
    have step : computePairsAux i ((d :: ds) ++ dl :: af :: adds) =
        computePairsAux (i + 1) (ds ++ dl :: af :: adds) := by
      cases ds with
      | nil =>
        have hnd : ¬ (d.type = LineType.deleted ∧ dl.type = LineType.added) := by
          rintro ⟨-, hc⟩
          rw [hdl] at hc
          exact absurd hc (by decide)
        simp only [List.nil_append, List.cons_append, computePairsAux]
        rw [if_neg hnd]
      | cons d2 ds2 =>
        have hd2 : d2.type = LineType.deleted := hds' d2 (by simp)
        have hnd : ¬ (d.type = LineType.deleted ∧ d2.type = LineType.added) := by
          rintro ⟨-, hc⟩
          rw [hd2] at hc
          exact absurd hc (by decide)
        simp only [List.cons_append, computePairsAux]
        rw [if_neg hnd]
        rfl
    rw [step, ih hds' (i + 1)]
    simp only [List.length_cons, List.cons.injEq, Prod.mk.injEq, and_true, true_and]
    exact ⟨by omega, by omega⟩

/-- C6 amended: for a run of N ≥ 1 consecutive Deleted lines immediately
followed by M ≥ 1 consecutive Added lines, compute_pairs pairs exactly ONE
adjacent slot pair — the last deletion (index N-1) with the first addition
(index N) — leaving all other deletions and additions unpaired. (The
original claim's min(N, M) pairs holds only when min(N, M) = 1.) -/
theorem c6_amended_single_boundary_pair (ds : List Line) (dl af : Line)
    (adds : List Line) (hds : ∀ l ∈ ds, l.type = LineType.deleted)
    (hdl : dl.type = LineType.deleted) (haf : af.type = LineType.added)
    (hadds : ∀ l ∈ adds, l.type = LineType.added) :
    computeLinePairs (ds ++ dl :: af :: adds) =
      [(ds.length, af.content), (ds.length + 1, dl.content)] := by
  have h := computePairsAux_del_run dl af adds hdl haf hadds ds hds 0
  simpa [computeLinePairs] using h

/-- C6 witness: the amended statement applied at N = M = 2. -/
theorem c6_witness :
    computeLinePairs
        [⟨LineType.deleted, ['a'], 1, 0⟩, ⟨LineType.deleted, ['b'], 2, 0⟩,
         ⟨LineType.added, ['c'], 0, 1⟩, ⟨LineType.added, ['d'], 0, 2⟩] =
      [(1, ['c']), (2, ['b'])] := by
  have h := c6_amended_single_boundary_pair [⟨LineType.deleted, ['a'], 1, 0⟩]
    ⟨LineType.deleted, ['b'], 2, 0⟩ ⟨LineType.added, ['c'], 0, 1⟩
    [⟨LineType.added, ['d'], 0, 2⟩] (by decide) rfl rfl (by decide)
  simpa using h


theorem runCounters_append (o n : Int) (ls : List Line) (l : Line) :
    runCounters o n (ls ++ [l]) =
      stepCounters (runCounters o n ls).1 (runCounters o n ls).2 l := by
  induction ls generalizing o n with
  | nil => simp [runCounters]
  | cons x xs ih => simp [runCounters, ih]

theorem stampedFrom_append (o n : Int) (ls : List Line) (l : Line) :
    stampedFrom o n (ls ++ [l]) =
      (stampedFrom o n ls && lineStampOk (runCounters o n ls).1 (runCounters o n ls).2 l) := by
  induction ls generalizing o n with
  | nil => simp [stampedFrom, runCounters]
  | cons x xs ih => simp [stampedFrom, runCounters, ih, Bool.and_assoc]

theorem runCounters_eq (o n : Int) (ls : List Line) :
    runCounters o n ls = (o + (countOld ls : Nat), n + (countNew ls : Nat)) := by
  induction ls generalizing o n with
  | nil => simp [runCounters, countOld, countNew]
  | cons l rest ih =>
    cases ht : l.type <;>
      simp only [runCounters, stepCounters, ht, countOld, countNew, List.filter_cons,
        oldSide, newSide, ih] <;>
      simp [Prod.ext_iff] <;>
      first
        | trivial
        | omega

/-- Exhaustive description of the possible transitions of one loop iteration:
a new file header, an inert line, a status-flag update (paths and hunks of
the open file preserved), a hunk header, or a content line of one of the
three emitted kinds. -/
theorem processLine_shape (st : ParseState) (line : List Char) :
    (∃ o n, matchDiffHeader line = some (o, n) ∧
      processLine st line =
        ⟨st.files ++ (match st.currentFile with | some f => [f] | none => []),
          some ⟨o, n, false, false, false, goExt n, []⟩, none,
          st.oldLineNum, st.newLineNum⟩) ∨
    (matchDiffHeader line = none ∧ processLine st line = st) ∨
    (∃ cf cf2, matchDiffHeader line = none ∧ st.currentFile = some cf ∧
      cf2.oldPath = cf.oldPath ∧ cf2.newPath = cf.newPath ∧ cf2.hunks = cf.hunks ∧
      processLine st line = { st with currentFile := some cf2 }) ∨
    (∃ cf g1 g2 g3 g4, matchDiffHeader line = none ∧ st.currentFile = some cf ∧
      matchHunkHeader line = some (g1, g2, g3, g4) ∧
      processLine st line =
        { st with
          currentFile := some (match st.currentHunk with
            | some h => { cf with hunks := cf.hunks ++ [h] }
            | none => cf)
          currentHunk := some (mkHunk g1 g2 g3 g4)
          oldLineNum := (mkHunk g1 g2 g3 g4).oldStart
          newLineNum := (mkHunk g1 g2 g3 g4).newStart }) ∨
    (∃ h content, matchDiffHeader line = none ∧ matchHunkHeader line = none ∧
      st.currentHunk = some h ∧
      (processLine st line = { st with
          currentHunk := some
            { h with lines := h.lines ++ [⟨LineType.added, content, 0, st.newLineNum⟩] }
          newLineNum := st.newLineNum + 1 } ∨
       processLine st line = { st with
          currentHunk := some
            { h with lines := h.lines ++ [⟨LineType.deleted, content, st.oldLineNum, 0⟩] }
          oldLineNum := st.oldLineNum + 1 } ∨
       processLine st line = { st with
          currentHunk := some
            { h with lines := h.lines ++
                [⟨LineType.unchanged, content, st.oldLineNum, st.newLineNum⟩] }
          oldLineNum := st.oldLineNum + 1
          newLineNum := st.newLineNum + 1 })) := by
  cases hm : matchDiffHeader line with
  | some c =>
    obtain ⟨o, n⟩ := c
    refine Or.inl ⟨o, n, rfl, ?_⟩
    cases hcf : st.currentFile <;> simp [processLine, hm, hcf]
  | none =>
    cases hcf : st.currentFile with
    | none => exact Or.inr (Or.inl ⟨rfl, by simp [processLine, hm, hcf]⟩)
    | some cf =>
      by_cases h1 : hasPrefixStr "new file mode" line
      · exact Or.inr (Or.inr (Or.inl ⟨cf, { cf with isNew := true }, rfl, rfl, rfl, rfl, rfl,
          by simp [processLine, hm, hcf, h1]⟩))
      · by_cases h2 : hasPrefixStr "deleted file mode" line
        · exact Or.inr (Or.inr (Or.inl ⟨cf, { cf with isDeleted := true }, rfl, rfl, rfl, rfl,
            rfl, by simp [processLine, hm, hcf, h1, h2]⟩))
        · by_cases h3 : hasPrefixStr "rename from" line
          · exact Or.inr (Or.inr (Or.inl ⟨cf, { cf with isRenamed := true }, rfl, rfl, rfl,
              rfl, rfl, by simp [processLine, hm, hcf, h1, h2, h3]⟩))
          · by_cases h4 : (hasPrefixStr "index " line || hasPrefixStr "Binary files" line ||
                hasPrefixStr "similarity index" line || hasPrefixStr "rename to" line)
            · exact Or.inr (Or.inl ⟨rfl, by simp [processLine, hm, hcf, h1, h2, h3, h4]⟩)
            · by_cases h5 : matchFilePath line
              · exact Or.inr (Or.inl ⟨rfl, by simp [processLine, hm, hcf, h1, h2, h3, h4, h5]⟩)
              · cases hh : matchHunkHeader line with
                | some caps =>
                  obtain ⟨g1, g2, g3, g4⟩ := caps
                  refine Or.inr (Or.inr (Or.inr (Or.inl
                    ⟨cf, g1, g2, g3, g4, rfl, rfl, rfl, ?_⟩)))
                  simp [processLine, hm, hcf, h1, h2, h3, h4, h5, hh]
                | none =>
                  cases hch : st.currentHunk with
                  | none =>
                    exact Or.inr (Or.inl ⟨rfl,
                      by simp [processLine, hm, hcf, h1, h2, h3, h4, h5, hh, hch]⟩)
                  | some hk =>
                    cases line with
                    | nil =>
                      exact Or.inr (Or.inl ⟨rfl,
                        by simp [processLine, hm, hcf, h1, h2, h3, h4, h5, hh, hch]⟩)
                    | cons c content =>
                      by_cases hc1 : c = '+'
                      · subst hc1
                        exact Or.inr (Or.inr (Or.inr (Or.inr ⟨hk, content, rfl, rfl, rfl,
                          Or.inl (by simp [processLine, hm, hcf, h1, h2, h3, h4, h5, hh, hch])⟩)))
                      · by_cases hc2 : c = '-'
                        · subst hc2
                          exact Or.inr (Or.inr (Or.inr (Or.inr ⟨hk, content, rfl, rfl, rfl,
                            Or.inr (Or.inl (by simp [processLine, hm, hcf, h1, h2, h3, h4, h5,
                              hh, hch, hc1]))⟩)))
                        · by_cases hc3 : c = ' '
                          · subst hc3
                            exact Or.inr (Or.inr (Or.inr (Or.inr ⟨hk, content, rfl, rfl, rfl,
                              Or.inr (Or.inr (by simp [processLine, hm, hcf, h1, h2, h3, h4, h5,
                                hh, hch, hc1, hc2]))⟩)))
                          · exact Or.inr (Or.inl ⟨rfl,
                              by simp [processLine, hm, hcf, h1, h2, h3, h4, h5, hh, hch,
                                hc1, hc2, hc3]⟩)


theorem hunksStamped_step (st : ParseState) (line : List Char) (hi : hunksStamped st) :
    hunksStamped (processLine st line) := by
  obtain ⟨hfiles, hcur, hhunk⟩ := hi
  rcases processLine_shape st line with
    ⟨o, n, hm, heq⟩ | ⟨hm, heq⟩ | ⟨cf, cf2, hm, hcf, hp1, hp2, hp3, heq⟩ |
    ⟨cf, g1, g2, g3, g4, hm, hcf, hh, heq⟩ | ⟨hk, content, hm, hh, hch, hcases⟩
  · rw [heq]
    refine ⟨?_, ?_, ?_⟩
    · intro f hf h hh2
      rcases List.mem_append.mp hf with hf | hf
      · exact hfiles f hf h hh2
      · cases hcf2 : st.currentFile with
        | none => rw [hcf2] at hf; simp at hf
        | some cfx =>
          rw [hcf2] at hf
          simp at hf
          subst hf
          exact hcur _ hcf2 h hh2
    · intro cf0 hcf0 h hh2
      have : cf0 = ⟨o, n, false, false, false, goExt n, []⟩ := (Option.some.inj hcf0).symm
      subst this
      simp at hh2
    · intro h hh2
      cases hh2
  · rw [heq]
    exact ⟨hfiles, hcur, hhunk⟩
  · rw [heq]
    refine ⟨hfiles, ?_, hhunk⟩
    intro cf0 h0 h hh2
    have : cf0 = cf2 := (Option.some.inj h0).symm
    subst this
    rw [hp3] at hh2
    exact hcur cf hcf h hh2
  · rw [heq]
    refine ⟨hfiles, ?_, ?_⟩
    · intro cf0 h0 h hh2
      cases hch2 : st.currentHunk with
      | none =>
        rw [hch2] at h0
        have : cf0 = cf := (Option.some.inj h0).symm
        subst this
        exact hcur _ hcf h hh2
      | some hko =>
        rw [hch2] at h0
        have : cf0 = { cf with hunks := cf.hunks ++ [hko] } := (Option.some.inj h0).symm
        subst this
        simp only at hh2
        rcases List.mem_append.mp hh2 with hh2 | hh2
        · exact hcur cf hcf h hh2
        · have : h = hko := by simpa using hh2
          subst this
          exact (hhunk h hch2).1
    · intro h h0
      have : h = mkHunk g1 g2 g3 g4 := (Option.some.inj h0).symm
      subst this
      exact ⟨rfl, rfl⟩
  · have hck := hhunk hk hch
    rcases hcases with heq | heq | heq <;> rw [heq] <;> refine ⟨hfiles, hcur, ?_⟩ <;>
      intro h0 hh0 <;>
      (have he : h0 = _ := (Option.some.inj hh0).symm; subst he) <;>
      constructor
    · rw [stampedFrom_append, hck.1, hck.2]
      simp [lineStampOk]
    · rw [runCounters_append, hck.2]
      simp [stepCounters]
    · rw [stampedFrom_append, hck.1, hck.2]
      simp [lineStampOk]
    · rw [runCounters_append, hck.2]
      simp [stepCounters]
    · rw [stampedFrom_append, hck.1, hck.2]
      simp [lineStampOk]
    · rw [runCounters_append, hck.2]
      simp [stepCounters]

theorem hunksStamped_foldl (lines : List (List Char)) :
    ∀ st, hunksStamped st → hunksStamped (lines.foldl processLine st) := by
  induction lines with
  | nil => intro st h; exact h
  | cons l ls ih =>
    intro st h
    exact ih (processLine st l) (hunksStamped_step st l h)

theorem hunksStamped_init : hunksStamped initState := by
  refine ⟨?_, ?_, ?_⟩
  · intro f hf
    simp [initState] at hf
  · intro cf hcf
    simp [initState] at hcf
  · intro h hh
    simp [initState] at hh

theorem finalizeState_stamped (st : ParseState) (hi : hunksStamped st) :
    ∀ f ∈ finalizeState st, ∀ h ∈ f.hunks,
      stampedFrom h.oldStart h.newStart h.lines = true := by
  obtain ⟨hfiles, hcur, hhunk⟩ := hi
  intro f hf h hh2
  unfold finalizeState at hf
  cases hcf : st.currentFile with
  | none =>
    rw [hcf] at hf
    exact hfiles f hf h hh2
  | some cf =>
    cases hch : st.currentHunk with
    | none =>
      rw [hcf, hch] at hf
      rcases List.mem_append.mp hf with hf | hf
      · exact hfiles f hf h hh2
      · have : f = cf := by simpa using hf
        subst this
        exact hcur _ hcf h hh2
    | some hk =>
      rw [hcf, hch] at hf
      rcases List.mem_append.mp hf with hf | hf
      · exact hfiles f hf h hh2
      · have : f = { cf with hunks := cf.hunks ++ [hk] } := by simpa using hf
        subst this
        simp only at hh2
        rcases List.mem_append.mp hh2 with hh2 | hh2
        · exact hcur cf hcf h hh2
        · have : h = hk := by simpa using hh2
          subst this
          exact (hhunk h hch).1

theorem parseLines_ok_elim (lines : List (List Char)) (fs : List FileDiff)
    (h : parseLines lines = .ok fs) :
    fs = finalizeState (lines.foldl processLine initState) := by
  have h' : (if (finalizeState (lines.foldl processLine initState)).isEmpty = true then
      (Except.error ParseError.emptyDiff : Except ParseError (List FileDiff))
    else .ok (finalizeState (lines.foldl processLine initState))) = .ok fs := h
  split at h'
  · cases h'
  · exact (Except.ok.inj h').symm

theorem parse_hunks_stamped (lines : List (List Char)) (fs : List FileDiff)
    (h : parseLines lines = .ok fs) :
    ∀ f ∈ fs, ∀ hk ∈ f.hunks, stampedFrom hk.oldStart hk.newStart hk.lines = true := by
  rw [parseLines_ok_elim lines fs h]
  exact finalizeState_stamped _ (hunksStamped_foldl lines initState hunksStamped_init)

theorem stamped_first_old (ls : List Line) :
    ∀ o n : Int, stampedFrom o n ls = true →
      ∀ l, (ls.filter oldSide).head? = some l → l.oldLineNum = o := by
  induction ls with
  | nil =>
    intro o n _ l hl
    simp at hl
  | cons x xs ih =>
    intro o n hs l hl
    simp only [stampedFrom, Bool.and_eq_true] at hs
    obtain ⟨h1, h2⟩ := hs
    cases ht : x.type
    · simp only [lineStampOk, ht, Bool.and_eq_true, beq_iff_eq] at h1
      have hfx : List.filter oldSide (x :: xs) = x :: List.filter oldSide xs := by
        simp [List.filter_cons, oldSide, ht]
      rw [hfx, List.head?_cons] at hl
      rw [← Option.some.inj hl]
      exact h1.1
    · have hfx : List.filter oldSide (x :: xs) = List.filter oldSide xs := by
        simp [List.filter_cons, oldSide, ht]
      rw [hfx] at hl
      simp only [stepCounters, ht] at h2
      exact ih o (n + 1) h2 l hl
    · simp only [lineStampOk, ht, Bool.and_eq_true, beq_iff_eq] at h1
      have hfx : List.filter oldSide (x :: xs) = x :: List.filter oldSide xs := by
        simp [List.filter_cons, oldSide, ht]
      rw [hfx, List.head?_cons] at hl
      rw [← Option.some.inj hl]
      exact h1.1
    · simp [lineStampOk, ht] at h1

theorem stamped_first_new (ls : List Line) :
    ∀ o n : Int, stampedFrom o n ls = true →
      ∀ l, (ls.filter newSide).head? = some l → l.newLineNum = n := by
  induction ls with
  | nil =>
    intro o n _ l hl
    simp at hl
  | cons x xs ih =>
    intro o n hs l hl
    simp only [stampedFrom, Bool.and_eq_true] at hs
    obtain ⟨h1, h2⟩ := hs
    cases ht : x.type
    · simp only [lineStampOk, ht, Bool.and_eq_true, beq_iff_eq] at h1
      have hfx : List.filter newSide (x :: xs) = x :: List.filter newSide xs := by
        simp [List.filter_cons, newSide, ht]
      rw [hfx, List.head?_cons] at hl
      rw [← Option.some.inj hl]
      exact h1.2
    · simp only [lineStampOk, ht, Bool.and_eq_true, beq_iff_eq] at h1
      have hfx : List.filter newSide (x :: xs) = x :: List.filter newSide xs := by
        simp [List.filter_cons, newSide, ht]
      rw [hfx, List.head?_cons] at hl
      rw [← Option.some.inj hl]
      exact h1.2
    · have hfx : List.filter newSide (x :: xs) = List.filter newSide xs := by
        simp [List.filter_cons, newSide, ht]
      rw [hfx] at hl
      simp only [stepCounters, ht] at h2
      exact ih (o + 1) n h2 l hl
    · simp [lineStampOk, ht] at h1

theorem stamped_bounds (ls : List Line) :
    ∀ o n : Int, stampedFrom o n ls = true → ∀ l ∈ ls,
      (l.type = LineType.added → l.oldLineNum = 0 ∧ n ≤ l.newLineNum) ∧
      (l.type = LineType.deleted → l.newLineNum = 0 ∧ o ≤ l.oldLineNum) ∧
      (l.type = LineType.unchanged → o ≤ l.oldLineNum ∧ n ≤ l.newLineNum) := by
  induction ls with
  | nil =>
    intro o n _ l hl
    simp at hl
  | cons x xs ih =>
    intro o n hs l hl
    simp only [stampedFrom, Bool.and_eq_true] at hs
    obtain ⟨h1, h2⟩ := hs
    rcases List.mem_cons.mp hl with hl | hl
    · subst hl
      cases ht : l.type
      · simp only [lineStampOk, ht, Bool.and_eq_true, beq_iff_eq] at h1
        refine ⟨fun hty => ?_, fun hty => ?_, fun hty => ?_⟩
        · exact absurd hty (by decide)
        · exact absurd hty (by decide)
        · exact ⟨le_of_eq h1.1.symm, le_of_eq h1.2.symm⟩
      · simp only [lineStampOk, ht, Bool.and_eq_true, beq_iff_eq] at h1
        refine ⟨fun hty => ?_, fun hty => ?_, fun hty => ?_⟩
        · exact ⟨h1.1, le_of_eq h1.2.symm⟩
        · exact absurd hty (by decide)
        · exact absurd hty (by decide)
      · simp only [lineStampOk, ht, Bool.and_eq_true, beq_iff_eq] at h1
        refine ⟨fun hty => ?_, fun hty => ?_, fun hty => ?_⟩
        · exact absurd hty (by decide)
        · exact ⟨h1.2, le_of_eq h1.1.symm⟩
        · exact absurd hty (by decide)
      · simp [lineStampOk, ht] at h1
    · have hb := ih (stepCounters o n x).1 (stepCounters o n x).2 h2 l hl
      cases ht : x.type <;> simp only [stepCounters, ht] at hb <;>
        exact ⟨fun hty => ⟨(hb.1 hty).1, by have := (hb.1 hty).2; omega⟩,
          fun hty => ⟨(hb.2.1 hty).1, by have := (hb.2.1 hty).2; omega⟩,
          fun hty => ⟨by have := (hb.2.2 hty).1; omega,
            by have := (hb.2.2 hty).2; omega⟩⟩

/-- C3: every hunk in the parse output is stamped by running counters that
start at (oldStart, newStart) and advance by 1 on the old side for
Deleted/Unchanged lines and on the new side for Added/Unchanged lines, in
line order; the first Deleted/Unchanged line carries oldStart and the first
Added/Unchanged line carries newStart; and after consuming all lines the
counters equal oldStart + countOld and newStart + countNew, hence
oldStart + oldLines and newStart + newLines for a well-formed hunk. -/
theorem c3_hunk_line_numbering :
    ∀ lines fs f hk, parseLines lines = .ok fs → f ∈ fs → hk ∈ f.hunks →
      stampedFrom hk.oldStart hk.newStart hk.lines = true ∧
      runCounters hk.oldStart hk.newStart hk.lines =
        (hk.oldStart + (countOld hk.lines : Nat), hk.newStart + (countNew hk.lines : Nat)) ∧
      ((countOld hk.lines : Int) = hk.oldLines → (countNew hk.lines : Int) = hk.newLines →
        runCounters hk.oldStart hk.newStart hk.lines =
          (hk.oldStart + hk.oldLines, hk.newStart + hk.newLines)) ∧
      (∀ l, (hk.lines.filter oldSide).head? = some l → l.oldLineNum = hk.oldStart) ∧
      (∀ l, (hk.lines.filter newSide).head? = some l → l.newLineNum = hk.newStart) := by
  intro lines fs f hk hok hf hh
  have hs := parse_hunks_stamped lines fs hok f hf hk hh
  refine ⟨hs, runCounters_eq _ _ _, ?_, stamped_first_old _ _ _ hs, stamped_first_new _ _ _ hs⟩
  intro h1 h2
  rw [runCounters_eq, ← h1, ← h2]

/-- C3 witness: the end-to-end diff of the spec, whose single hunk is headed
`@@ -1,2 +1,2 @@`: the first Deleted/Unchanged line carries old number 1,
the first Added/Unchanged line new number 1, and the final counters are
(1 + 2, 1 + 2). -/
theorem c3_witness :
    stampedFrom 1 1
        [⟨LineType.deleted, ("old line").toList, 1, 0⟩,
         ⟨LineType.added, ("new line").toList, 0, 1⟩,
         ⟨LineType.unchanged, ("context").toList, 2, 2⟩] = true ∧
    runCounters 1 1
        [⟨LineType.deleted, ("old line").toList, 1, 0⟩,
         ⟨LineType.added, ("new line").toList, 0, 1⟩,
         ⟨LineType.unchanged, ("context").toList, 2, 2⟩] = (1 + 2, 1 + 2) := by
  have h := c3_hunk_line_numbering
    (splitLines ("diff --git a/f.txt b/f.txt\n@@ -1,2 +1,2 @@\n-old line\n+new line\n context").toList)
    [⟨("f.txt").toList, ("f.txt").toList, false, false, false, (".txt").toList,
      [⟨1, 2, 1, 2,
        [⟨LineType.deleted, ("old line").toList, 1, 0⟩,
         ⟨LineType.added, ("new line").toList, 0, 1⟩,
         ⟨LineType.unchanged, ("context").toList, 2, 2⟩]⟩]⟩]
    ⟨("f.txt").toList, ("f.txt").toList, false, false, false, (".txt").toList,
      [⟨1, 2, 1, 2,
        [⟨LineType.deleted, ("old line").toList, 1, 0⟩,
         ⟨LineType.added, ("new line").toList, 0, 1⟩,
         ⟨LineType.unchanged, ("context").toList, 2, 2⟩]⟩]⟩
    ⟨1, 2, 1, 2,
      [⟨LineType.deleted, ("old line").toList, 1, 0⟩,
       ⟨LineType.added, ("new line").toList, 0, 1⟩,
       ⟨LineType.unchanged, ("context").toList, 2, 2⟩]⟩
    (by rfl) (by decide) (by decide)
  exact ⟨h.1, h.2.2.1 (by decide) (by decide)⟩

/-- C7 counterexample: the crafted hunk header `@@ -0,0 +0,0 @@` makes the
running new counter start at 0, so the Added line `+x` is emitted with
newLineNum = 0 — i.e. its new line number is absent (0 encodes absence per
the data model), refuting "an Added line has its new line number set". -/
theorem c7_counterexample :
    ParseDiff ("diff --git a/a b/b\n@@ -0,0 +0,0 @@\n+x").toList =
      .ok [⟨['a'], ['b'], false, false, false, [],
        [⟨0, 0, 0, 0, [⟨LineType.added, ['x'], 0, 0⟩]⟩]⟩] ∧
    ¬ (∀ f ∈ (ParseDiff ("diff --git a/a b/b\n@@ -0,0 +0,0 @@\n+x").toList).toOption.getD [],
        ∀ hk ∈ f.hunks, ∀ l ∈ hk.lines,
          l.type = LineType.added → l.newLineNum ≠ 0) := by
  constructor
  · rfl
  · decide

/-- C7 amended: for every Line produced by parse from a hunk whose header
starts are at least 1 (as in well-formed git diffs) and whose final
counters stay within int64 range (start + number of lines counted on that
side at most 2^63 - 1, so Go's wrapping int arithmetic never overflows and
agrees with the unbounded counters used here): an Added line has
oldLineNum = 0 (absent) and newLineNum ≥ 1 (set), a Deleted line has
newLineNum = 0 and oldLineNum ≥ 1, and an Unchanged line has both ≥ 1. -/
theorem c7_amended_number_presence :
    ∀ lines fs f hk l, parseLines lines = .ok fs → f ∈ fs → hk ∈ f.hunks →
      1 ≤ hk.oldStart → 1 ≤ hk.newStart →
      hk.oldStart + (countOld hk.lines : Nat) ≤ 2 ^ 63 - 1 →
      hk.newStart + (countNew hk.lines : Nat) ≤ 2 ^ 63 - 1 →
      l ∈ hk.lines →
      (l.type = LineType.added → l.oldLineNum = 0 ∧ 1 ≤ l.newLineNum) ∧
      (l.type = LineType.deleted → l.newLineNum = 0 ∧ 1 ≤ l.oldLineNum) ∧
      (l.type = LineType.unchanged → 1 ≤ l.oldLineNum ∧ 1 ≤ l.newLineNum) := by
  intro lines fs f hk l hok hf hh ho hn hbo hbn hl
  have hs := parse_hunks_stamped lines fs hok f hf hk hh
  have hb := stamped_bounds hk.lines hk.oldStart hk.newStart hs l hl
  refine ⟨fun hty => ?_, fun hty => ?_, fun hty => ?_⟩
  · exact ⟨(hb.1 hty).1, by have := (hb.1 hty).2; omega⟩
  · exact ⟨(hb.2.1 hty).1, by have := (hb.2.1 hty).2; omega⟩
  · exact ⟨by have := (hb.2.2 hty).1; omega, by have := (hb.2.2 hty).2; omega⟩

/-- C7 witness: the amended statement on the end-to-end diff: the Deleted
line has (1, 0), the Added line (0, 1), the Unchanged line (2, 2). -/
theorem c7_witness :
    (LineType.added = LineType.added →
      (0 : Int) = 0 ∧ (1 : Int) ≤ 1) ∧
    (LineType.added = LineType.deleted → (1 : Int) = 0 ∧ (1 : Int) ≤ 0) ∧
    (LineType.added = LineType.unchanged → (1 : Int) ≤ 0 ∧ (1 : Int) ≤ 1) := by
  have h := c7_amended_number_presence
    (splitLines ("diff --git a/f.txt b/f.txt\n@@ -1,2 +1,2 @@\n-old line\n+new line\n context").toList)
    [⟨("f.txt").toList, ("f.txt").toList, false, false, false, (".txt").toList,
      [⟨1, 2, 1, 2,
        [⟨LineType.deleted, ("old line").toList, 1, 0⟩,
         ⟨LineType.added, ("new line").toList, 0, 1⟩,
         ⟨LineType.unchanged, ("context").toList, 2, 2⟩]⟩]⟩]
    ⟨("f.txt").toList, ("f.txt").toList, false, false, false, (".txt").toList,
      [⟨1, 2, 1, 2,
        [⟨LineType.deleted, ("old line").toList, 1, 0⟩,
         ⟨LineType.added, ("new line").toList, 0, 1⟩,
         ⟨LineType.unchanged, ("context").toList, 2, 2⟩]⟩]⟩
    ⟨1, 2, 1, 2,
      [⟨LineType.deleted, ("old line").toList, 1, 0⟩,
       ⟨LineType.added, ("new line").toList, 0, 1⟩,
       ⟨LineType.unchanged, ("context").toList, 2, 2⟩]⟩
    ⟨LineType.added, ("new line").toList, 0, 1⟩
    (by rfl) (by decide) (by decide) (by decide) (by decide) (by decide) (by decide)
    (by decide)
  exact h


theorem statePaths_step (st : ParseState) (line : List Char) :
    statePaths (processLine st line) = statePaths st ++ (matchDiffHeader line).toList := by
  rcases processLine_shape st line with
    ⟨o, n, hm, heq⟩ | ⟨hm, heq⟩ | ⟨cf, cf2, hm, hcf, hp1, hp2, hp3, heq⟩ |
    ⟨cf, g1, g2, g3, g4, hm, hcf, hh, heq⟩ | ⟨hk, content, hm, hh, hch, hcases⟩
  · rw [heq, hm]
    cases hcf : st.currentFile <;>
      simp [statePaths, pathsOf, hcf, List.append_assoc]
  · rw [heq, hm]
    simp
  · rw [heq, hm]
    simp [statePaths, pathsOf, hcf, hp1, hp2]
  · rw [heq, hm]
    cases hch : st.currentHunk <;>
      simp [statePaths, pathsOf, hcf, hch]
  · rcases hcases with heq | heq | heq <;> rw [heq, hm] <;> simp [statePaths]

theorem statePaths_foldl (lines : List (List Char)) :
    ∀ st, statePaths (lines.foldl processLine st) = statePaths st ++ headerCaptures lines := by
  induction lines with
  | nil =>
    intro st
    simp [headerCaptures]
  | cons l ls ih =>
    intro st
    rw [List.foldl_cons, ih, statePaths_step]
    cases hm : matchDiffHeader l <;> simp [headerCaptures, List.filterMap_cons, hm]

theorem pathsOf_finalizeState (st : ParseState) :
    pathsOf (finalizeState st) = statePaths st := by
  unfold finalizeState statePaths
  cases hcf : st.currentFile with
  | none => simp
  | some cf =>
    cases hch : st.currentHunk <;> simp [pathsOf]

theorem parse_paths (lines : List (List Char)) :
    pathsOf (finalizeState (lines.foldl processLine initState)) = headerCaptures lines := by
  rw [pathsOf_finalizeState, statePaths_foldl]
  simp [statePaths, pathsOf, initState]

theorem parseLines_error_of_no_captures (lines : List (List Char))
    (he : headerCaptures lines = []) : parseLines lines = .error .emptyDiff := by
  have hp := parse_paths lines
  rw [he] at hp
  have hfs : finalizeState (lines.foldl processLine initState) = [] := by
    have := congrArg List.length hp
    simp [pathsOf] at this
    exact this
  unfold parseLines
  rw [hfs]
  rfl

theorem parseLines_ok_of_captures (lines : List (List Char))
    (hne : headerCaptures lines ≠ []) :
    parseLines lines = .ok (finalizeState (lines.foldl processLine initState)) := by
  have hp := parse_paths lines
  have hfs : finalizeState (lines.foldl processLine initState) ≠ [] := by
    intro h0
    rw [h0] at hp
    simp [pathsOf] at hp
    exact hne hp
  unfold parseLines
  rw [if_neg]
  simp [List.isEmpty_iff]
  exact hfs

theorem quiet_foldl (suf : List (List Char)) :
    ∀ st cf, st.currentFile = some cf → st.currentHunk = none →
      (∀ l ∈ suf, matchDiffHeader l = none ∧ matchHunkHeader l = none) →
      ∃ cf2, (suf.foldl processLine st).currentFile = some cf2 ∧ cf2.hunks = cf.hunks ∧
        (suf.foldl processLine st).currentHunk = none ∧
        (suf.foldl processLine st).files = st.files := by
  induction suf with
  | nil =>
    intro st cf hcf hch _
    exact ⟨cf, hcf, rfl, hch, rfl⟩
  | cons l ls ih =>
    intro st cf hcf hch hq
    have hql := hq l (by simp)
    rcases processLine_shape st l with
      ⟨o, n, hm, heq⟩ | ⟨hm, heq⟩ | ⟨cfa, cfb, hm, hcfa, hp1, hp2, hp3, heq⟩ |
      ⟨cfa, g1, g2, g3, g4, hm, hcfa, hh, heq⟩ | ⟨hk, content, hm, hh, hchk, hcases⟩
    · rw [hql.1] at hm
      cases hm
    · rw [List.foldl_cons, heq]
      exact ih st cf hcf hch (fun x hx => hq x (by simp [hx]))
    · rw [List.foldl_cons, heq]
      obtain ⟨cf2, ha, hb, hc, hd⟩ :=
        ih { st with currentFile := some cfb } cfb rfl (by simpa using hch)
          (fun x hx => hq x (by simp [hx]))
      have hee : cfa = cf := by
        rw [hcfa] at hcf
        exact Option.some.inj hcf
      exact ⟨cf2, ha, by rw [hb, hp3, hee], hc, by simpa using hd⟩
    · rw [hql.2] at hh
      cases hh
    · rw [hch] at hchk
      cases hchk

/-- C1: the empty input string is an empty success (not an error), while any
non-empty input whose lines contain no `diff --git a/<old> b/<new>` header
fails with the (single) parse error. -/
theorem c1_empty_input_vs_no_header :
    ParseDiff [] = .ok [] ∧
    ∀ s : List Char, s ≠ [] → (∀ l ∈ splitLines s, matchDiffHeader l = none) →
      ParseDiff s = .error ParseError.emptyDiff := by
  constructor
  · rfl
  · intro s hs hnone
    unfold ParseDiff
    rw [if_neg (by simpa [List.isEmpty_iff] using hs)]
    apply parseLines_error_of_no_captures
    unfold headerCaptures
    exact List.filterMap_eq_nil_iff.mpr hnone

/-- C1 witness: the non-empty header-free input "hello" errors out. -/
theorem c1_witness : ParseDiff ("hello").toList = .error ParseError.emptyDiff :=
  c1_empty_input_vs_no_header.2 ("hello").toList (by decide) (by decide)

theorem files_foldl_prefix (ls : List (List Char)) :
    ∀ st : ParseState, ∃ d, (ls.foldl processLine st).files = st.files ++ d := by
  induction ls with
  | nil =>
    intro st
    exact ⟨[], by simp⟩
  | cons l ls ih =>
    intro st
    obtain ⟨d1, hd1⟩ := ih (processLine st l)
    have hstep : ∃ d0, (processLine st l).files = st.files ++ d0 := by
      rcases processLine_shape st l with
        ⟨o, n, hm, heq⟩ | ⟨hm, heq⟩ | ⟨cf, cf2, hm, hcf, _, _, _, heq⟩ |
        ⟨cf, g1, g2, g3, g4, hm, hcf, hh, heq⟩ | ⟨hk, content, hm, hh, hch, hcases⟩
      · exact ⟨_, by rw [heq]⟩
      · exact ⟨[], by rw [heq]; simp⟩
      · exact ⟨[], by rw [heq]; simp⟩
      · exact ⟨[], by rw [heq]; simp⟩
      · rcases hcases with heq | heq | heq <;> exact ⟨[], by rw [heq]; simp⟩
    obtain ⟨d0, hd0⟩ := hstep
    rw [List.foldl_cons]
    exact ⟨d0 ++ d1, by rw [hd1, hd0, List.append_assoc]⟩

theorem finalizeState_files_prefix (st : ParseState) :
    ∃ d, finalizeState st = st.files ++ d := by
  unfold finalizeState
  cases hcf : st.currentFile with
  | none => exact ⟨[], by simp⟩
  | some cf =>
    cases hch : st.currentHunk with
    | none => exact ⟨[cf], rfl⟩
    | some hk => exact ⟨[{ cf with hunks := cf.hunks ++ [hk] }], rfl⟩

/-- C2: with k ≥ 1 header lines, parse succeeds with exactly k FileDiff
entries whose (oldPath, newPath) pairs are the captured header paths in
input order; and any header — at any position — that is followed only by
lines that are neither file headers nor hunk headers until the next file
header (or the end of input) yields a FileDiff with an empty hunk list at
the header's position in the output. -/
theorem c2_file_count_order_empty_hunks :
    ∀ lines : List (List Char),
      (1 ≤ (headerCaptures lines).length →
        ∃ fs, parseLines lines = .ok fs ∧ fs.length = (headerCaptures lines).length ∧
          pathsOf fs = headerCaptures lines) ∧
      (∀ pre hdr mid post c fs, lines = pre ++ hdr :: (mid ++ post) →
        matchDiffHeader hdr = some c →
        (∀ l ∈ mid, matchDiffHeader l = none ∧ matchHunkHeader l = none) →
        (post = [] ∨ ∃ hd2 rest2 c2, post = hd2 :: rest2 ∧ matchDiffHeader hd2 = some c2) →
        parseLines lines = .ok fs →
        ∃ f, fs[(headerCaptures pre).length]? = some f ∧ f.hunks = []) := by
  intro lines
  constructor
  · intro hk
    have hne : headerCaptures lines ≠ [] := by
      intro h0
      rw [h0] at hk
      simp at hk
    refine ⟨finalizeState (lines.foldl processLine initState),
      parseLines_ok_of_captures lines hne, ?_, parse_paths lines⟩
    have hlen := congrArg List.length (parse_paths lines)
    simpa [pathsOf] using hlen
  · intro pre hdr mid post c fs hsplit hhdr hq hpost hok
    subst hsplit
    obtain ⟨o, n⟩ := c
    have hstep : processLine (pre.foldl processLine initState) hdr =
        ⟨(pre.foldl processLine initState).files ++
            (match (pre.foldl processLine initState).currentFile with
             | some f => [f]
             | none => []),
          some ⟨o, n, false, false, false, goExt n, []⟩, none,
          (pre.foldl processLine initState).oldLineNum,
          (pre.foldl processLine initState).newLineNum⟩ := by
      rcases processLine_shape (pre.foldl processLine initState) hdr with
        ⟨o2, n2, hm, heq⟩ | ⟨hm, heq⟩ | ⟨_, _, hm, _, _, _, _, _⟩ |
        ⟨_, _, _, _, _, hm, _, _, _⟩ | ⟨_, _, hm, _, _, _⟩
      · rw [hhdr] at hm
        have := Option.some.inj hm
        obtain ⟨e1, e2⟩ := Prod.mk.injEq .. ▸ this
        subst e1
        subst e2
        exact heq
      · rw [hhdr] at hm
        cases hm
      · rw [hhdr] at hm
        cases hm
      · rw [hhdr] at hm
        cases hm
      · rw [hhdr] at hm
        cases hm
    have hcf1 : (processLine (pre.foldl processLine initState) hdr).currentFile =
        some ⟨o, n, false, false, false, goExt n, []⟩ := by rw [hstep]
    have hch1 : (processLine (pre.foldl processLine initState) hdr).currentHunk = none := by
      rw [hstep]
    obtain ⟨cf2, ha, hb, hc, hd⟩ :=
      quiet_foldl mid (processLine (pre.foldl processLine initState) hdr) _ hcf1 hch1 hq
    have hlen : (processLine (pre.foldl processLine initState) hdr).files.length =
        (headerCaptures pre).length := by
      have e1 : processLine (pre.foldl processLine initState) hdr =
          (pre ++ [hdr]).foldl processLine initState := by
        rw [List.foldl_append]
        rfl
      have e2 := statePaths_foldl (pre ++ [hdr]) initState
      rw [← e1] at e2
      have e3 : headerCaptures (pre ++ [hdr]) = headerCaptures pre ++ [(o, n)] := by
        unfold headerCaptures
        rw [List.filterMap_append]
        simp [hhdr]
      have l1 : (statePaths (processLine (pre.foldl processLine initState) hdr)).length =
          (processLine (pre.foldl processLine initState) hdr).files.length + 1 := by
        unfold statePaths
        rw [hcf1]
        simp [pathsOf]
      have l2 : (statePaths (processLine (pre.foldl processLine initState) hdr)).length =
          (headerCaptures pre).length + 1 := by
        rw [e2, e3]
        simp [statePaths, pathsOf, initState]
      omega
    have hfs : fs = finalizeState ((pre ++ hdr :: (mid ++ post)).foldl processLine initState) :=
      parseLines_ok_elim _ _ hok
    rw [List.foldl_append, List.foldl_cons, List.foldl_append] at hfs
    rcases hpost with rfl | ⟨hd2, rest2, c2, rfl, hhdr2⟩
    · rw [List.foldl_nil] at hfs
      have hfin : finalizeState
          (mid.foldl processLine (processLine (pre.foldl processLine initState) hdr)) =
          (mid.foldl processLine (processLine (pre.foldl processLine initState) hdr)).files ++
            [cf2] := by
        unfold finalizeState
        rw [ha, hc]
      rw [hfin, hd] at hfs
      refine ⟨cf2, ?_, by rw [hb]⟩
      rw [hfs, ← hlen]
      exact List.getElem?_concat_length _ _
    · rw [List.foldl_cons] at hfs
      have hf3 : (processLine
          (mid.foldl processLine (processLine (pre.foldl processLine initState) hdr))
          hd2).files =
          (mid.foldl processLine (processLine (pre.foldl processLine initState) hdr)).files ++
            [cf2] := by
        rcases processLine_shape
            (mid.foldl processLine (processLine (pre.foldl processLine initState) hdr)) hd2 with
          ⟨o2, n2, hm2, heq2⟩ | ⟨hm2, _⟩ | ⟨_, _, hm2, _, _, _, _, _⟩ |
          ⟨_, _, _, _, _, hm2, _, _, _⟩ | ⟨_, _, hm2, _, _, _⟩
        · rw [heq2]
          simp [ha]
        · rw [hhdr2] at hm2
          cases hm2
        · rw [hhdr2] at hm2
          cases hm2
        · rw [hhdr2] at hm2
          cases hm2
        · rw [hhdr2] at hm2
          cases hm2
      obtain ⟨d1, hd1⟩ := files_foldl_prefix rest2
        (processLine (mid.foldl processLine (processLine (pre.foldl processLine initState) hdr))
          hd2)
      obtain ⟨d2, hd2e⟩ := finalizeState_files_prefix
        (rest2.foldl processLine
          (processLine
            (mid.foldl processLine (processLine (pre.foldl processLine initState) hdr)) hd2))
      rw [hd2e, hd1, hf3, hd] at hfs
      refine ⟨cf2, ?_, by rw [hb]⟩
      rw [hfs, ← hlen]
      have hlt1 : (processLine (pre.foldl processLine initState) hdr).files.length <
          ((processLine (pre.foldl processLine initState) hdr).files ++ [cf2]).length := by
        simp only [List.length_append, List.length_cons, List.length_nil]
        omega
      have hlt2 : (processLine (pre.foldl processLine initState) hdr).files.length <
          (((processLine (pre.foldl processLine initState) hdr).files ++ [cf2]) ++ d1).length := by
        simp only [List.length_append, List.length_cons, List.length_nil]
        omega
      rw [List.getElem?_append_left hlt2, List.getElem?_append_left hlt1,
        List.getElem?_concat_length]

/-- C2 witness: two headers, the first hunk-less (a pure-rename-style block
closed by the next file header mid-diff), the second with one hunk; the
FileDiff at the first header's position 0 has an empty hunk list, and the
single-header input exercises the count/order part. -/
theorem c2_witness :
    (∃ fs, parseLines [("diff --git a/x b/y").toList] = .ok fs ∧
      fs.length = (headerCaptures [("diff --git a/x b/y").toList]).length ∧
      pathsOf fs = headerCaptures [("diff --git a/x b/y").toList]) ∧
    (∃ f, ([⟨['x'], ['y'], false, false, false, [], []⟩,
        ⟨['p'], ['q'], false, false, false, [],
          [⟨1, 1, 1, 1, [⟨LineType.unchanged, ['z'], 1, 1⟩]⟩]⟩] : List FileDiff)[0]? =
        some f ∧ f.hunks = []) := by
  constructor
  · exact (c2_file_count_order_empty_hunks [("diff --git a/x b/y").toList]).1 (by decide)
  · exact (c2_file_count_order_empty_hunks
      [("diff --git a/x b/y").toList, ("diff --git a/p b/q").toList,
        ("@@ -1 +1 @@").toList, (" z").toList]).2
      [] ("diff --git a/x b/y").toList []
      [("diff --git a/p b/q").toList, ("@@ -1 +1 @@").toList, (" z").toList]
      (['x'], ['y'])
      [⟨['x'], ['y'], false, false, false, [], []⟩,
        ⟨['p'], ['q'], false, false, false, [],
          [⟨1, 1, 1, 1, [⟨LineType.unchanged, ['z'], 1, 1⟩]⟩]⟩]
      rfl (by decide) (by intro l hl; simp at hl)
      (Or.inr ⟨("diff --git a/p b/q").toList,
        [("@@ -1 +1 @@").toList, (" z").toList], (['p'], ['q']), rfl, by decide⟩)
      (by rfl)

theorem goAtoi_invalid (l : List Char) (h : isNumericStr l = false) : goAtoi l = 0 := by
  cases l with
  | nil => rfl
  | cons c rest =>
    simp only [isNumericStr] at h
    simp only [goAtoi]
    by_cases hc : c = '+'
    · subst hc
      rw [if_pos rfl] at h
      rw [if_pos rfl, h]
      simp
    · by_cases hc2 : c = '-'
      · subst hc2
        rw [if_neg hc, if_pos rfl] at h
        rw [if_neg hc, if_pos rfl, h]
        simp
      · rw [if_neg hc, if_neg hc2] at h
        rw [if_neg hc, if_neg hc2, h]
        simp

theorem matchHunkHeader_shape (l : List Char)
    (caps : List Char × Option (List Char) × List Char × Option (List Char))
    (hh : matchHunkHeader l = some caps) :
    ∃ rest, l = '@' :: '@' :: ' ' :: '-' :: rest := by
  unfold matchHunkHeader at hh
  split at hh
  · next rest => exact ⟨rest, rfl⟩
  · cases hh

/-- C8: a missing `,count` group defaults the line count to 1; a numeric
field that strconv.Atoi cannot parse degrades the corresponding Hunk field to
0 with the failure swallowed; a matched hunk header always just starts a new
hunk built by mkHunk (no error path); and parse's only error is the
no-diff-data one, raised exactly when no header was captured. -/
theorem c8_hunk_numbers_lenient :
    (∀ g1 g2 g3 g4,
      (g2 = none → (mkHunk g1 g2 g3 g4).oldLines = 1) ∧
      (g4 = none → (mkHunk g1 g2 g3 g4).newLines = 1) ∧
      (isNumericStr g1 = false → (mkHunk g1 g2 g3 g4).oldStart = 0) ∧
      (isNumericStr g3 = false → (mkHunk g1 g2 g3 g4).newStart = 0) ∧
      (∀ s, g2 = some s → isNumericStr s = false → (mkHunk g1 g2 g3 g4).oldLines = 0) ∧
      (∀ s, g4 = some s → isNumericStr s = false → (mkHunk g1 g2 g3 g4).newLines = 0)) ∧
    (∀ st cf line g1 g2 g3 g4, st.currentFile = some cf →
      matchHunkHeader line = some (g1, g2, g3, g4) →
      processLine st line =
        { st with
          currentFile := some (match st.currentHunk with
            | some h => { cf with hunks := cf.hunks ++ [h] }
            | none => cf)
          currentHunk := some (mkHunk g1 g2 g3 g4)
          oldLineNum := (mkHunk g1 g2 g3 g4).oldStart
          newLineNum := (mkHunk g1 g2 g3 g4).newStart }) ∧
    (∀ lines e, parseLines lines = .error e →
      e = ParseError.emptyDiff ∧ headerCaptures lines = []) := by
  refine ⟨?_, ?_, ?_⟩
  · intro g1 g2 g3 g4
    refine ⟨?_, ?_, ?_, ?_, ?_, ?_⟩
    · intro h
      subst h
      rfl
    · intro h
      subst h
      rfl
    · intro h
      simp [mkHunk, goAtoi_invalid g1 h]
    · intro h
      simp [mkHunk, goAtoi_invalid g3 h]
    · intro s h hnum
      subst h
      simp [mkHunk, goAtoi_invalid s hnum]
    · intro s h hnum
      subst h
      simp [mkHunk, goAtoi_invalid s hnum]
  · intro st cf line g1 g2 g3 g4 hcf hh
    obtain ⟨rest, rfl⟩ := matchHunkHeader_shape line _ hh
    have e1 : matchDiffHeader ('@' :: '@' :: ' ' :: '-' :: rest) = none := rfl
    have e2 : hasPrefixStr "new file mode" ('@' :: '@' :: ' ' :: '-' :: rest) = false := rfl
    have e3 : hasPrefixStr "deleted file mode" ('@' :: '@' :: ' ' :: '-' :: rest) = false := rfl
    have e4 : hasPrefixStr "rename from" ('@' :: '@' :: ' ' :: '-' :: rest) = false := rfl
    have e5 : hasPrefixStr "index " ('@' :: '@' :: ' ' :: '-' :: rest) = false := rfl
    have e6 : hasPrefixStr "Binary files" ('@' :: '@' :: ' ' :: '-' :: rest) = false := rfl
    have e7 : hasPrefixStr "similarity index" ('@' :: '@' :: ' ' :: '-' :: rest) = false := rfl
    have e8 : hasPrefixStr "rename to" ('@' :: '@' :: ' ' :: '-' :: rest) = false := rfl
    have e9 : matchFilePath ('@' :: '@' :: ' ' :: '-' :: rest) = false := rfl
    simp [processLine, e1, e2, e3, e4, e5, e6, e7, e8, e9, hcf, hh]
  · intro lines e herr
    constructor
    · cases e
      rfl
    · by_contra hne
      rw [parseLines_ok_of_captures lines hne] at herr
      cases herr

/-- C8 witness: `@@ -1 +1 @@` defaults both counts to 1; a (hypothetical)
non-numeric captured field such as "abc" degrades to 0; and the error
classification applied to the empty line list. -/
theorem c8_witness :
    (mkHunk ['1'] none ['1'] none).oldLines = 1 ∧
    (mkHunk ['1'] none ['1'] none).newLines = 1 ∧
    (mkHunk ("abc").toList (some ("xy").toList) ['1'] none).oldStart = 0 ∧
    (mkHunk ("abc").toList (some ("xy").toList) ['1'] none).oldLines = 0 ∧
    ParseError.emptyDiff = ParseError.emptyDiff ∧ headerCaptures [] = [] := by
  refine ⟨?_, ?_, ?_, ?_, ?_⟩
  · exact ((c8_hunk_numbers_lenient.1 ['1'] none ['1'] none).1 rfl)
  · exact ((c8_hunk_numbers_lenient.1 ['1'] none ['1'] none).2.1 rfl)
  · exact ((c8_hunk_numbers_lenient.1 ("abc").toList (some ("xy").toList) ['1'] none).2.2.1
      (by decide))
  · exact ((c8_hunk_numbers_lenient.1 ("abc").toList (some ("xy").toList) ['1'] none).2.2.2.2.1
      ("xy").toList rfl (by decide))
  · exact c8_hunk_numbers_lenient.2.2 [] ParseError.emptyDiff (by rfl)

/-- C10: inside an open hunk, a content line whose first three characters are
`+++` or `---` followed by a space and at least one character matches the
file-path-marker pattern and is discarded: the scan state is returned
unchanged, so no Line is emitted and neither running counter advances. -/
theorem c10_marker_lines_inside_hunk_discarded :
    ∀ st : ParseState, ∀ hk : Hunk, ∀ rest : List Char,
      st.currentHunk = some hk → rest ≠ [] →
      matchFilePath ('+' :: '+' :: '+' :: ' ' :: rest) = true ∧
      matchFilePath ('-' :: '-' :: '-' :: ' ' :: rest) = true ∧
      processLine st ('+' :: '+' :: '+' :: ' ' :: rest) = st ∧
      processLine st ('-' :: '-' :: '-' :: ' ' :: rest) = st := by
  intro st hk rest hch hrest
  obtain ⟨r, rs, rfl⟩ : ∃ r rs, rest = r :: rs := by
    cases rest with
    | nil => exact absurd rfl hrest
    | cons r rs => exact ⟨r, rs, rfl⟩
  have p1 : matchDiffHeader ('+' :: '+' :: '+' :: ' ' :: r :: rs) = none := rfl
  have p2 : hasPrefixStr "new file mode" ('+' :: '+' :: '+' :: ' ' :: r :: rs) = false := rfl
  have p3 : hasPrefixStr "deleted file mode" ('+' :: '+' :: '+' :: ' ' :: r :: rs) = false := rfl
  have p4 : hasPrefixStr "rename from" ('+' :: '+' :: '+' :: ' ' :: r :: rs) = false := rfl
  have p5 : hasPrefixStr "index " ('+' :: '+' :: '+' :: ' ' :: r :: rs) = false := rfl
  have p6 : hasPrefixStr "Binary files" ('+' :: '+' :: '+' :: ' ' :: r :: rs) = false := rfl
  have p7 : hasPrefixStr "similarity index" ('+' :: '+' :: '+' :: ' ' :: r :: rs) = false := rfl
  have p8 : hasPrefixStr "rename to" ('+' :: '+' :: '+' :: ' ' :: r :: rs) = false := rfl
  have p9 : matchFilePath ('+' :: '+' :: '+' :: ' ' :: r :: rs) = true := rfl
  have m1 : matchDiffHeader ('-' :: '-' :: '-' :: ' ' :: r :: rs) = none := rfl
  have m2 : hasPrefixStr "new file mode" ('-' :: '-' :: '-' :: ' ' :: r :: rs) = false := rfl
  have m3 : hasPrefixStr "deleted file mode" ('-' :: '-' :: '-' :: ' ' :: r :: rs) = false := rfl
  have m4 : hasPrefixStr "rename from" ('-' :: '-' :: '-' :: ' ' :: r :: rs) = false := rfl
  have m5 : hasPrefixStr "index " ('-' :: '-' :: '-' :: ' ' :: r :: rs) = false := rfl
  have m6 : hasPrefixStr "Binary files" ('-' :: '-' :: '-' :: ' ' :: r :: rs) = false := rfl
  have m7 : hasPrefixStr "similarity index" ('-' :: '-' :: '-' :: ' ' :: r :: rs) = false := rfl
  have m8 : hasPrefixStr "rename to" ('-' :: '-' :: '-' :: ' ' :: r :: rs) = false := rfl
  have m9 : matchFilePath ('-' :: '-' :: '-' :: ' ' :: r :: rs) = true := rfl
  refine ⟨p9, m9, ?_, ?_⟩
  · cases hcf : st.currentFile with
    | none => simp [processLine, p1, hcf]
    | some cf => simp [processLine, p1, p2, p3, p4, p5, p6, p7, p8, p9, hcf]
  · cases hcf : st.currentFile with
    | none => simp [processLine, m1, hcf]
    | some cf => simp [processLine, m1, m2, m3, m4, m5, m6, m7, m8, m9, hcf]

/-- C10 witness: a concrete state with an open hunk and the line "+++ x"
(an added line whose content begins "++ x"), left exactly unchanged. -/
theorem c10_witness :
    processLine ⟨[], some ⟨['a'], ['b'], false, false, false, [], []⟩,
        some ⟨1, 1, 1, 1, []⟩, 1, 1⟩ ('+' :: '+' :: '+' :: ' ' :: ['x']) =
      ⟨[], some ⟨['a'], ['b'], false, false, false, [], []⟩, some ⟨1, 1, 1, 1, []⟩, 1, 1⟩ ∧
    processLine ⟨[], some ⟨['a'], ['b'], false, false, false, [], []⟩,
        some ⟨1, 1, 1, 1, []⟩, 1, 1⟩ ('-' :: '-' :: '-' :: ' ' :: ['x']) =
      ⟨[], some ⟨['a'], ['b'], false, false, false, [], []⟩, some ⟨1, 1, 1, 1, []⟩, 1, 1⟩ := by
  have h := c10_marker_lines_inside_hunk_discarded
    ⟨[], some ⟨['a'], ['b'], false, false, false, [], []⟩, some ⟨1, 1, 1, 1, []⟩, 1, 1⟩
    ⟨1, 1, 1, 1, []⟩ ['x'] rfl (by decide)
  exact ⟨h.2.2.1, h.2.2.2⟩
